import Mathlib

/-!
Verification of the analysis-orchestration core of a Next.js GitHub-repository
analyzer.  The TypeScript sources are shallowly embedded: JavaScript strings
become `String` / `List Char`, machine numbers become `Nat` / `Int` / `ℚ`
(JavaScript `NaN` is modelled by `Option.none` where it can arise), thrown
exceptions become `Except` values, and each regular expression appearing in
the source is embedded as a concrete scanner.  For every scanner we argue in a
comment why deterministic maximal munch coincides with the backtracking
behaviour of the JavaScript engine on that particular pattern.
-/

namespace AnalyzerProof

/-- Decidable equality of `Except` values, used to evaluate the embedded
functions on concrete inputs. -/
instance {ε α : Type} [DecidableEq ε] [DecidableEq α] : DecidableEq (Except ε α) := fun x y =>
  match x, y with
  | .ok a, .ok b =>
    if h : a = b then .isTrue (by rw [h]) else .isFalse (fun hc => h (Except.ok.inj hc))
  | .error a, .error b =>
    if h : a = b then .isTrue (by rw [h]) else .isFalse (fun hc => h (Except.error.inj hc))
  | .ok _, .error _ => .isFalse (fun hc => Except.noConfusion hc)
  | .error _, .ok _ => .isFalse (fun hc => Except.noConfusion hc)

/-! ## Generic character-list scanning helpers -/

/-- Case-sensitive literal match at the head of `l`; returns the remainder
after the literal when it matches. -/
def litMatch : List Char → List Char → Option (List Char)
  | [], l => some l
  | _ :: _, [] => none
  | p :: ps, c :: cs => if p = c then litMatch ps cs else none

/-- Case-insensitive literal match (the pattern is stored lower-case and each
subject character is lowered before comparison), modelling a regex literal
under the `/i` flag. -/
def litMatchCI : List Char → List Char → Option (List Char)
  | [], l => some l
  | _ :: _, [] => none
  | p :: ps, c :: cs => if p = c.toLower then litMatchCI ps cs else none

/-- Split `l` at the first occurrence of `pat` (case-sensitive), scanning left
to right: returns the text strictly before the occurrence and the text
strictly after it. -/
def scanSplit (pat : List Char) : List Char → Option (List Char × List Char)
  | [] => (litMatch pat []).map (fun r => (([] : List Char), r))
  | c :: cs =>
    match litMatch pat (c :: cs) with
    | some rest => some ([], rest)
    | none => (scanSplit pat cs).map (fun pr => (c :: pr.1, pr.2))

/-- `String.prototype.includes`: `containsStr s pat` is true iff `pat` occurs
in `s`. -/
def containsStr (s pat : String) : Bool :=
  (scanSplit pat.data s.data).isSome

/-- `p+` with maximal munch: one or more characters satisfying `p`; returns
the captured run and the remainder, or `none` if the first character fails. -/
def munch1 (p : Char → Bool) : List Char → Option (List Char × List Char)
  | [] => none
  | c :: cs => if p c then some (c :: cs.takeWhile p, cs.dropWhile p) else none

/-- JavaScript `\s`, restricted to the ASCII whitespace characters (the
provider messages matched by the source never contain the additional Unicode
space characters `\s` also accepts). -/
def isJsSpace (c : Char) : Bool :=
  c = ' ' || c = '\t' || c = '\n' || c = '\r' || c = '\x0b' || c = '\x0c'

/-- Character class `[\d.]` from the source regexes. -/
def isFloatChar (c : Char) : Bool :=
  c.isDigit || c = '.'

/-- `parseInt` on an all-digit capture (base 10). -/
def digitsToNat (l : List Char) : ℕ :=
  l.foldl (fun n c => 10 * n + (c.toNat - 48)) 0

/-- `Number.parseFloat` applied to a capture of `[\d.]+`: parses the longest
leading `digits[.digits]` prefix, exactly, as a rational; `none` models `NaN`
(produced e.g. by the capture `"."`).  Exact rationals stand in for IEEE
doubles; all decimal literals reaching this function in the claims are exactly
representable. -/
def parseFloatQ (l : List Char) : Option ℚ :=
  let ip := l.takeWhile Char.isDigit
  let rest := l.drop ip.length
  match rest with
  | '.' :: r2 =>
    let fp := r2.takeWhile Char.isDigit
    if ip.isEmpty && fp.isEmpty then none
    else some ((digitsToNat ip : ℚ) + (digitsToNat fp : ℚ) / ((10 : ℚ) ^ fp.length))
  | _ => if ip.isEmpty then none else some ((digitsToNat ip : ℚ))

/-! ## Rate-limit classification (`src/app/api/analyze-route/route.ts`) -/

/-- The literal shared by the three wait-hint regexes. -/
def tryAgainLit : List Char := "try again in".data

/-- `String.prototype.match` against a pattern `try again in<tail>` under the
`/i` flag: at each start position, left to right, attempt the literal followed
by the tail matcher, returning the first success — exactly the JS engine's
scan order. -/
def scanFor {β : Type} (tail : List Char → Option β) : List Char → Option β
  | [] => none
  | c :: cs =>
    match (litMatchCI tryAgainLit (c :: cs)).bind tail with
    | some r => some r
    | none => scanFor tail cs

/-- Tail of `/try again in\s+\d+h/i`.  Maximal munch is exact here: `\s` and
`\d` are disjoint, and shortening the greedy `\d+` run leaves a digit where
`h` is required, so no backtracking alternative can succeed. -/
def hourTail (l : List Char) : Option Unit :=
  (munch1 isJsSpace l).bind fun s1 =>
  (munch1 Char.isDigit s1.2).bind fun s2 =>
  match s2.2 with
  | c :: _ => if c.toLower = 'h' then some () else none
  | [] => none

/-- Tail of `/try again in\s+(\d+)m([\d.]+)s/i`, returning the two captures.
Maximal munch is exact: `\s`, `\d` and `[\d.]` are pairwise disjoint from the
required following literals `m` and `s`, so shortening any greedy run leaves a
character that cannot match the next piece. -/
def minTail (l : List Char) : Option (List Char × List Char) :=
  (munch1 isJsSpace l).bind fun s1 =>
  (munch1 Char.isDigit s1.2).bind fun s2 =>
  match s2.2 with
  | c :: r3 =>
    if c.toLower = 'm' then
      (munch1 isFloatChar r3).bind fun s3 =>
      match s3.2 with
      | d :: _ => if d.toLower = 's' then some (s2.1, s3.1) else none
      | [] => none
    else none
  | [] => none

/-- Tail of `/try again in\s+([\d.]+)s/i`, returning the capture. -/
def secTail (l : List Char) : Option (List Char) :=
  (munch1 isJsSpace l).bind fun s1 =>
  (munch1 isFloatChar s1.2).bind fun s2 =>
  match s2.2 with
  | c :: _ => if c.toLower = 's' then some s2.1 else none
  | [] => none

/-- `/try again in\s+\d+h/i.test(message)`. -/
def hourScan (msg : List Char) : Bool :=
  (scanFor hourTail msg).isSome

/-- `message.match(/try again in\s+(\d+)m([\d.]+)s/i)`, as its captures. -/
def minScan (msg : List Char) : Option (List Char × List Char) :=
  scanFor minTail msg

/-- `message.match(/try again in\s+([\d.]+)s/i)`, as its capture. -/
def secScan (msg : List Char) : Option (List Char) :=
  scanFor secTail msg

/-- JavaScript error values reaching `withRateLimitRetry`: an ordinary `Error`
or the dedicated `RateLimitExhaustedError` (route.ts:12-17), whose `message`
is the fixed string `RATE_LIMIT_EXHAUSTED` and which carries the original
message it was constructed from. -/
inductive JsError where
  | generic (message : String)
  | rateLimitExhausted (originalMessage : String)
deriving DecidableEq

/-- The `.message` property of the two error shapes. -/
def JsError.message : JsError → String
  | .generic m => m
  | .rateLimitExhausted _ => "RATE_LIMIT_EXHAUSTED"

/-- `err instanceof RateLimitExhaustedError`. -/
def JsError.isRateLimitExhausted : JsError → Bool
  | .rateLimitExhausted _ => true
  | .generic _ => false

/-- `parseGroq429WaitMs` (route.ts:20-35).  `.ok (some ms)` is an ordinary
return of a wait in milliseconds, `.ok none` models returning `NaN` (which the
source lets flow through `ms > 12000` — false for `NaN` — and into
`setTimeout`), and `.error` models `throw new RateLimitExhaustedError(message)`. -/
def parseGroq429WaitMs (message : String) : Except JsError (Option ℚ) :=
  if hourScan message.data then .error (.rateLimitExhausted message)
  else
    match minScan message.data with
    | some caps =>
      match parseFloatQ caps.2 with
      | some secs =>
        if 12000 < ((digitsToNat caps.1 : ℚ) * 60 + secs) * 1000 then
          .error (.rateLimitExhausted message)
        else .ok (some (((digitsToNat caps.1 : ℚ) * 60 + secs) * 1000 + 400))
      | none => .ok none
    | none =>
      match secScan message.data with
      | some cap =>
        match parseFloatQ cap with
        | some secs => .ok (some ((((secs * 1000).ceil : ℤ) : ℚ) + 400))
        | none => .ok none
      | none => .ok (some 3000)

/-- Everything observable about one `withRateLimitRetry` execution: the value
or error it produced, how many retry attempts were made (calls to `fn` beyond
the first), and the `setTimeout` waits performed (JS coerces a `NaN` delay to
`0`). -/
structure RetryTrace (α : Type) where
  result : Except JsError α
  retries : ℕ
  waits : List ℚ

/-- The inner `catch` of `withRateLimitRetry` (route.ts:52-59): an error
raised after a 429 first attempt is escalated to `RateLimitExhaustedError`
when its message contains `429` or it is itself a `RateLimitExhaustedError`;
otherwise it is rethrown unchanged. -/
def escalateRetryError (e : JsError) : JsError :=
  if containsStr e.message "429" || e.isRateLimitExhausted then
    .rateLimitExhausted e.message
  else e

/-- `withRateLimitRetry` (route.ts:37-63).  The wrapped call `fn` is supplied
extensionally as the outcome of its first invocation and the outcome of its
(at most one) retry invocation. -/
def withRateLimitRetry {α : Type} (first next : Except JsError α) : RetryTrace α :=
  match first with
  | .ok v => ⟨.ok v, 0, []⟩
  | .error err =>
    if containsStr err.message "429" = false then ⟨.error err, 0, []⟩
    else
      match parseGroq429WaitMs err.message with
      | .error ex => ⟨.error (escalateRetryError ex), 0, []⟩
      | .ok waitMs =>
        match next with
        | .ok v => ⟨.ok v, 1, [waitMs.getD 0]⟩
        | .error e2 => ⟨.error (escalateRetryError e2), 1, [waitMs.getD 0]⟩

/-- The terminal responses of the route handler's `catch` block
(route.ts:205-214). -/
inductive RouteFailure where
  | rateLimitExceeded
  | genericFailure (message : String)
deriving DecidableEq

/-- HTTP status attached to each terminal failure response. -/
def routeFailureStatus : RouteFailure → ℕ
  | .rateLimitExceeded => 402
  | .genericFailure _ => 500

/-- The `catch` block of `GET` (route.ts:205-214): a `RateLimitExhaustedError`
becomes the dedicated `rateLimitExceeded` signal (status 402); anything else
becomes a generic failure (status 500). -/
def classifyRouteError : JsError → RouteFailure
  | .rateLimitExhausted _ => .rateLimitExceeded
  | .generic m => .genericFailure ("Route analysis failed: " ++ m)

/-- The canonical throttling message shape of claim C10: a 429 message whose
only wait hint is minute-scale with no seconds component, with the digit run
supplied as a parameter. -/
def minuteOnlyMsg (ds : List Char) : String :=
  ⟨"429 try again in ".data ++ ds ++ ['m']⟩

/-! ## Route-level cache (`src/models/RouteCache.ts` and the analyze-route
handler's steps 1 and F) -/

/-- A document of the `RouteCache` collection as read back by
`RouteCache.findOne({repoUrl, route}).lean()`: either payload field may be
missing (`none`) or present. -/
structure RouteCacheEntry where
  flowVisualization : Option String
  executionTrace : Option String
deriving DecidableEq

/-- The `RouteCache` MongoDB collection, modelled at its interface as an
association list keyed by the unique `(repoUrl, route)` lookup key. -/
abbrev RouteStore : Type := List ((String × String) × RouteCacheEntry)

/-- `RouteCache.findOne({repoUrl, route})`. -/
def storeLookup : RouteStore → (String × String) → Option RouteCacheEntry
  | [], _ => none
  | (k2, v) :: rest, k => if k2 = k then some v else storeLookup rest k

/-- `RouteCache.findOneAndUpdate({repoUrl, route}, doc, {upsert: true})`:
replace the unique record with this key in place, inserting it if absent. -/
def storeUpsert : RouteStore → (String × String) → RouteCacheEntry → RouteStore
  | [], k, v => [(k, v)]
  | (k2, v2) :: rest, k, v =>
    if k2 = k then (k, v) :: rest else (k2, v2) :: storeUpsert rest k v

/-- The observable payload of a successful deep-analysis response. -/
structure RouteResponse where
  flowVisualization : String
  executionTrace : String
  fromCache : Bool
deriving DecidableEq

/-- The cache read / recompute / write skeleton of the analyze-route `GET`
handler (route.ts:84-99 and 190-203): on a non-bypassed read whose cached
record has both payload fields truthy (`cached?.flowVisualization &&
cached?.executionTrace`), return it with `fromCache := true` and leave the
store untouched; otherwise run the analysis — whose outcome (steps A-E) is
supplied as `recomputed = (flowVisualization, executionTrace)` — and upsert
the record before returning it with `fromCache := false`. -/
def handleRouteRequest (forceReload : Bool) (store : RouteStore) (key : String × String)
    (recomputed : String × String) : RouteResponse × RouteStore :=
  match forceReload, storeLookup store key with
  | false, some ⟨some flow, some trace⟩ =>
    if flow = "" ∨ trace = "" then
      (⟨recomputed.1, recomputed.2, false⟩,
        storeUpsert store key ⟨some recomputed.1, some recomputed.2⟩)
    else (⟨flow, trace, true⟩, store)
  | _, _ =>
    (⟨recomputed.1, recomputed.2, false⟩,
      storeUpsert store key ⟨some recomputed.1, some recomputed.2⟩)

/-! ## Mermaid edge-label repair and JSON extraction (`src/lib/llm.ts`) -/

/-- Match the malformed-edge pattern `-->\|([^|]+)\|>` at the head of `l`:
the literal `-->|`, a non-empty maximal run of non-`|` characters (maximal
munch is exact: a shorter capture leaves a non-`|` character where `|` is
required), then `|>`.  Returns the capture and the remainder after the
match. -/
def badEdgeAt (l : List Char) : Option (List Char × List Char) :=
  match litMatch "-->|".data l with
  | none => none
  | some r1 =>
    match munch1 (fun c => !(c = '|')) r1 with
    | none => none
    | some s =>
      match s.2 with
      | '|' :: '>' :: rest => some (s.1, rest)
      | _ => none

/-- The global replace of pattern `-->\|([^|]+)\|>` by `-->|$1|` applied to
the model text (llm.ts:133): scan left to
right; at each match emit the repaired edge and continue with the text after
the match, as the JS global replace does.  `fuel` bounds the recursion; each
step consumes at least one input character, so `l.length + 1` is always
enough. -/
def fixMermaidGo : ℕ → List Char → List Char
  | 0, l => l
  | _ + 1, [] => []
  | fuel + 1, c :: cs =>
    match badEdgeAt (c :: cs) with
    | some (cap, rest) => "-->|".data ++ cap ++ ['|'] ++ fixMermaidGo fuel rest
    | none => c :: fixMermaidGo fuel cs

/-- The Mermaid edge repair applied to the model response in
`analyzeArchitecture` before any JSON extraction is attempted. -/
def fixMermaidEdges (text : String) : String :=
  ⟨fixMermaidGo (text.data.length + 1) text.data⟩

/-- Whether the malformed edge pattern occurs anywhere (same scan as the
repair). -/
def hasBadEdgeGo : ℕ → List Char → Bool
  | 0, _ => false
  | _ + 1, [] => false
  | fuel + 1, c :: cs =>
    match badEdgeAt (c :: cs) with
    | some _ => true
    | none => hasBadEdgeGo fuel cs

/-- Whether `text` contains the malformed edge pattern. -/
def hasBadEdge (text : String) : Bool :=
  hasBadEdgeGo (text.data.length + 1) text.data

/-- JavaScript `String.prototype.trim` (restricted to ASCII whitespace, which
is all the source's payloads exercise). -/
def trimChars (l : List Char) : List Char :=
  ((l.dropWhile isJsSpace).reverse.dropWhile isJsSpace).reverse

/-- Match `/```(?:json)?\s*([\s\S]*?)```/` at the head of `l`, returning the
capture and the remainder.  The optional `json` tag is consumed greedily when
present (consuming it never changes whether a closing fence exists later,
since `json` contains no backtick); `\s*` is munched maximally (shortening it
only moves whitespace — never a backtick — into the lazy capture, so a
closing fence follows the maximal munch iff it follows any shorter one); the
lazy capture is then the text up to the first closing fence. -/
def fenceBlockAt (l : List Char) : Option (List Char × List Char) :=
  match litMatch "```".data l with
  | none => none
  | some r1 =>
    match litMatch "json".data r1 with
    | some r2 => scanSplit "```".data (r2.dropWhile isJsSpace)
    | none => scanSplit "```".data (r1.dropWhile isJsSpace)

/-- The fenced-block search of `extractJSON`: the first position at which the
whole block pattern matches. -/
def fenceBlock : List Char → Option (List Char × List Char)
  | [] => none
  | c :: cs =>
    match fenceBlockAt (c :: cs) with
    | some r => some r
    | none => fenceBlock cs

/-- `extractJSON` (llm.ts:48-53) up to its `JSON.parse` call: the exact
string handed to `JSON.parse` — the trimmed interior of the first fenced
block when one exists, else the whole trimmed response. -/
def extractJSONpayload (text : String) : String :=
  match fenceBlock text.data with
  | some pr => ⟨trimChars pr.1⟩
  | none => ⟨trimChars text.data⟩

/-- A route-catalog entry (`RouteDetail`, llm.ts:151-157). -/
structure RouteDetail where
  path : String
  method : String
  functionality : String
  contribution : String
  lifecycleRole : String
deriving DecidableEq

/-- The synthetic home-page fallback entry (llm.ts:249-257). -/
def fallbackRoute : RouteDetail :=
  ⟨"/", "PAGE", "Main entry point of the application.",
    "Serves as the landing page for all users.", "UI Rendering"⟩

/-- The decoding tail of `analyzeRoutes` (llm.ts:243-258): `extractJSON` with
`JSON.parse` supplied as an oracle (`none` models a `JSON.parse` throw); a
decode failure yields the single synthetic home-page entry instead of
propagating the error. -/
def decodeRoutes (parse : String → Option (List RouteDetail)) (text : String) :
    List RouteDetail :=
  match parse (extractJSONpayload text) with
  | some routes => routes
  | none => [fallbackRoute]

/-! ## Source-reference marker resolution (analyze-route route.ts:158-183) -/

/-- A fetched source file as consumed by the marker resolver (an element of
`fullFiles` or of the repository's cached `keyFileContents`). -/
structure SrcFile where
  path : String
  content : String
deriving DecidableEq

/-- JavaScript `content.split("\n")`. -/
def splitLines : List Char → List (List Char)
  | [] => [[]]
  | c :: rest =>
    if c = '\n' then [] :: splitLines rest
    else
      match splitLines rest with
      | h :: t => (c :: h) :: t
      | [] => [[c]]

/-- The snippet slice `file.content.split("\n").slice(start, end)` of
route.ts:171 — 0-based start, exclusive end. -/
def snippetLines (content : String) (start e : ℕ) : List (List Char) :=
  ((splitLines content.data).drop start).take (e - start)

/-- The 1-based line `j` of a content string, as split by the resolver. -/
def lineAt (content : String) (j : ℕ) : Option (List Char) :=
  (splitLines content.data)[j - 1]?

/-- `String.prototype.endsWith`, over the character lists. -/
def strEndsWith (s suffix : String) : Bool :=
  (litMatch suffix.data.reverse s.data.reverse).isSome

/-- The fence language tag inferred from the file extension
(route.ts:173-178). -/
def langOf (filePath : String) : String :=
  if strEndsWith filePath ".py" then "python"
  else if strEndsWith filePath ".go" then "go"
  else if strEndsWith filePath ".js" || strEndsWith filePath ".jsx" then "javascript"
  else if strEndsWith filePath ".rs" then "rust"
  else if strEndsWith filePath ".java" then "java"
  else "typescript"

/-- The file lookup of the replacement callback (route.ts:163-165): first the
freshly fetched files, then the repository's cached key files. -/
def lookupFile (fullFiles keyFiles : List SrcFile) (filePath : String) : Option SrcFile :=
  match fullFiles.find? (fun f => f.path = filePath) with
  | some f => some f
  | none => keyFiles.find? (fun f => f.path = filePath)

/-- The replacement callback of the marker regex (route.ts:162-181).
`startLine - 1` over `ℕ` equals the source's `Math.max(0, parseInt(startLine)
- 1)` over machine integers, since the capture `\d+` is non-negative. -/
def resolveMarker (fullFiles keyFiles : List SrcFile) (filePath : String)
    (startLine : ℕ) (endLine : Option ℕ) : String :=
  match lookupFile fullFiles keyFiles filePath with
  | none => "```plaintext\n// File not found: " ++ filePath ++ "\n```"
  | some file =>
    let start := startLine - 1
    let e := match endLine with
      | some e2 => e2
      | none => start + 30
    "```" ++ langOf filePath ++ "\n" ++
      String.mk (List.intercalate ['\n'] (snippetLines file.content start e)) ++ "\n```"

/-- The `:(\d+)(?:-(\d+))?>+` and optional trailing backtick tail of the
marker regex, after the lazy path capture.  Greedy runs are exact: a
shortened `\d+` leaves a digit where `-` or `>` is required, and a shortened
`>+` leaves `>` where the end or backtick check happens, neither of which can
fail afterwards. -/
def markerTail (l : List Char) : Option (ℕ × Option ℕ × List Char) :=
  match l with
  | ':' :: r1 =>
    match munch1 Char.isDigit r1 with
    | none => none
    | some s1 =>
      match
        (match s1.2 with
        | '-' :: r2a =>
          match munch1 Char.isDigit r2a with
          | some s2 => (some (digitsToNat s2.1), s2.2)
          | none => (none, '-' :: r2a)
        | _ => ((none : Option ℕ), s1.2)) with
      | (d2, r3) =>
        match munch1 (fun c => c = '>') r3 with
        | none => none
        | some s3 =>
          match s3.2 with
          | c :: t =>
            if c = '\x60' then some (digitsToNat s1.1, d2, t)
            else some (digitsToNat s1.1, d2, c :: t)
          | [] => some (digitsToNat s1.1, d2, [])
  | _ => none

/-- The lazy `(.*?)` of the marker pattern: the engine extends the capture
one character at a time (never across a newline, which `.` does not match)
until the tail matches. -/
def lazyPath : List Char → Option (List Char × ℕ × Option ℕ × List Char)
  | [] => none
  | c :: cs =>
    match markerTail (c :: cs) with
    | some (d1, d2, rest) => some ([], d1, d2, rest)
    | none =>
      if c = '\n' ∨ c = '\r' then none
      else
        match lazyPath cs with
        | some (path, d1, d2, rest) => some (c :: path, d1, d2, rest)
        | none => none

/-- Match the whole marker pattern (optional backtick, `<+`, `FILE:`, lazy
path, numeric tail) at the head of `l`.  Skipping the optional leading
backtick is deterministic: if a backtick is present but not consumed, the
required following `<` cannot match it. -/
def markerAt (l : List Char) : Option (List Char × ℕ × Option ℕ × List Char) :=
  match
    (match l with
    | c :: t => if c = '\x60' then t else c :: t
    | [] => []) with
  | l1 =>
    match munch1 (fun c => c = '<') l1 with
    | none => none
    | some s1 =>
      match litMatch "FILE:".data s1.2 with
      | none => none
      | some r2 => lazyPath r2

/-- The global marker replace over the execution trace (route.ts:160-182):
scan left to right, emit the callback result at each match and continue after
the match.  Each match consumes at least one character, so `l.length + 1`
fuel always suffices. -/
def resolveTraceGo (fullFiles keyFiles : List SrcFile) : ℕ → List Char → List Char
  | 0, l => l
  | _ + 1, [] => []
  | fuel + 1, c :: cs =>
    match markerAt (c :: cs) with
    | some (path, d1, d2, rest) =>
      (resolveMarker fullFiles keyFiles (String.mk path) d1 d2).data ++
        resolveTraceGo fullFiles keyFiles fuel rest
    | none => c :: resolveTraceGo fullFiles keyFiles fuel cs

/-- `executionTrace.replace(markerRegex, callback)`. -/
def resolveTrace (fullFiles keyFiles : List SrcFile) (trace : String) : String :=
  ⟨resolveTraceGo fullFiles keyFiles (trace.data.length + 1) trace.data⟩

/-! ## Repository identity (`src/lib/utils.ts` parseGitHubUrl) -/

/-- Split a character list on a separator character (JavaScript
`split(sep)`). -/
def splitOnChar (sep : Char) : List Char → List (List Char)
  | [] => [[]]
  | c :: rest =>
    if c = sep then [] :: splitOnChar sep rest
    else
      match splitOnChar sep rest with
      | h :: t => (c :: h) :: t
      | [] => [[c]]

/-- Characters that end the authority component of a URL. -/
def isAuthorityEnd (c : Char) : Bool :=
  c = '/' || c = '?' || c = '#'

/-- Characters that start the query or fragment of a URL. -/
def isQueryStart (c : Char) : Bool :=
  c = '?' || c = '#'

/-- The parts of a parsed URL that `parseGitHubUrl` consumes. -/
structure UrlModel where
  scheme : String
  host : String
  pathname : List Char
deriving DecidableEq

/-- Model of the WHATWG `URL` parser (`new URL(...)`) restricted to the
fragment the source exercises: an absolute
`scheme://authority/path[?query][#fragment]` URL.  The authority is
lowercased, as the real parser does to the host; percent-encoding, userinfo
and port splitting, backslash normalization and non-ASCII host mapping are
outside the model — the URLs in the claims contain none of them. -/
def urlParse (s : String) : Option UrlModel :=
  match scanSplit "://".data s.data with
  | none => none
  | some (schemeChars, rest) =>
    if schemeChars = [] ∨ ¬ schemeChars.all Char.isAlpha then none
    else
      if rest.takeWhile (fun c => !(isAuthorityEnd c)) = [] then none
      else
        some ⟨⟨schemeChars⟩,
          ⟨(rest.takeWhile (fun c => !(isAuthorityEnd c))).map Char.toLower⟩,
          match (rest.dropWhile (fun c => !(isAuthorityEnd c))).takeWhile
              (fun c => !(isQueryStart c)) with
          | [] => ['/']
          | path => path⟩

/-- `parts[1].replace(/\.git$/, "")`: strip exactly one trailing `.git`. -/
def stripGitSuffix (s : String) : String :=
  if strEndsWith s ".git" then ⟨s.data.take (s.data.length - 4)⟩ else s

/-- `parseGitHubUrl` (utils.ts:9-19) over the URL model: trim, parse, accept
only host `github.com`, split the pathname on `/` dropping empty segments
(`filter(Boolean)`), require at least two segments, and return the owner and
the repo segment with one trailing `.git` stripped. -/
def parseGitHubUrl (url : String) : Option (String × String) :=
  match urlParse ⟨trimChars url.data⟩ with
  | none => none
  | some u =>
    if u.host ≠ "github.com" then none
    else
      match (splitOnChar '/' u.pathname).filter (fun seg => !seg.isEmpty) with
      | p0 :: p1 :: _ => some (⟨p0⟩, stripGitSuffix ⟨p1⟩)
      | _ => none

/-! ## Key-file selection (`src/lib/github.ts` getKeyFileContents) -/

/-- `truncate` (utils.ts:24-27). -/
def truncate (s : String) (maxChars : ℕ) : String :=
  if s.length ≤ maxChars then s
  else ⟨s.data.take maxChars⟩ ++ "\n... [TRUNCATED FOR CONTEXT LIMIT]"

/-- A selected key file: path plus truncated content. -/
structure KeyFile where
  path : String
  content : String
deriving DecidableEq

/-- A file-tree entry as consumed by `getKeyFileContents` (only the path is
read there). -/
structure TreeItem where
  path : String
deriving DecidableEq

/-- `ROUTING_PATTERNS` (github.ts:415-428). -/
def ROUTING_PATTERNS : List String :=
  ["app/page.tsx", "app/page.ts", "app/layout.tsx",
   "app/api",
   "pages/index.tsx", "pages/index.ts", "pages/api",
   "routes/", "router.js", "router.ts", "server.js", "server.ts", "app.js", "app.ts",
   "index.js", "index.ts",
   "urls.py", "main.py", "app.py", "routes.py",
   "README.md", "readme.md", "frontend/README.md", "backend/README.md",
   "FRONTEND_README.md", "BACKEND_README.md"]

/-- `String.prototype.startsWith`, over the character lists. -/
def strStartsWith (s pre : String) : Bool :=
  (litMatch pre.data s.data).isSome

/-- The per-pattern path test (github.ts:444):
`p === pattern || p.startsWith(pattern) || p.endsWith(pattern)`. -/
def patternMatches (pat p : String) : Bool :=
  p = pat || strStartsWith p pat || strEndsWith p pat

/-- The selection loop (github.ts:440-448): for each pattern in order, append
the matching paths not already collected, stopping once at least 20 are
collected or the patterns are exhausted. -/
def selectLoop (filePaths : List String) : List String → List String → List String
  | [], acc => acc
  | pat :: pats, acc =>
    if 20 ≤ (acc ++ (filePaths.filter (fun p => patternMatches pat p)).filter
        (fun m => !acc.contains m)).length then
      acc ++ (filePaths.filter (fun p => patternMatches pat p)).filter
        (fun m => !acc.contains m)
    else
      selectLoop filePaths pats
        (acc ++ (filePaths.filter (fun p => patternMatches pat p)).filter
          (fun m => !acc.contains m))

/-- A 4001-character content used to exhibit the truncation behaviour. -/
def longContent : String :=
  ⟨List.replicate 4001 'a'⟩

/-- The per-path fetch step of `getKeyFileContents` (github.ts:452-461): the
oracle `fetch` stands for the GitHub content request plus base64 decode
(`none` models a failed fetch, caught and skipped by the source; an empty
decoded content is falsy and also skipped); a fetched content is stored
truncated by `truncate content 4000`. -/
def keyFileStep (fetch : String → Option String) (path : String) : Option KeyFile :=
  match fetch path with
  | some content =>
    if content = "" then none else some (⟨path, truncate content 4000⟩ : KeyFile)
  | none => none

/-- `getKeyFileContents` (github.ts:430-465): select up to 20 pattern-matched
paths and fetch each, skipping failures. -/
def getKeyFileContents (fetch : String → Option String) (fileTree : List TreeItem) :
    List KeyFile :=
  ((selectLoop (fileTree.map (fun f => f.path)) ROUTING_PATTERNS []).take 20).filterMap
    (keyFileStep fetch)

/-! ## Helper lemmas -/

/-- The computable ceiling agrees with the order: `q ≤ ↑q.ceil`. -/
theorem le_ratCeil (q : ℚ) : q ≤ ((Rat.ceil q : ℤ) : ℚ) := by
  unfold Rat.ceil
  split_ifs with h
  · have hnd := Rat.num_div_den q
    rw [h] at hnd
    push_cast at hnd
    rw [div_one] at hnd
    rw [hnd]
  · have hfloor : ⌊q⌋ = q.num / q.den := Rat.floor_def
    rw [← hfloor]
    push_cast
    linarith [Int.lt_floor_add_one q]

/-- Facts about decimal-digit characters used when a scanner walks a symbolic
digit run. -/
theorem digitChar_facts : ∀ c ∈ "0123456789".data,
    Char.toLower c = c ∧ Char.isDigit c = true ∧ isJsSpace c = false ∧
    isFloatChar c = true ∧ Char.toLower c ≠ 't' := by decide

/-- Unfolding equation of `scanFor` at a cons cell. -/
theorem scanFor_cons {β : Type} (tail : List Char → Option β) (c : Char) (cs : List Char) :
    scanFor tail (c :: cs) =
      match (litMatchCI tryAgainLit (c :: cs)).bind tail with
      | some r => some r
      | none => scanFor tail cs := rfl

/-- A position whose head cannot start the literal `try again in` is skipped
by the scan. -/
theorem scanFor_cons_not_t {β : Type} (tail : List Char → Option β) {c : Char}
    (cs : List Char) (h : Char.toLower c ≠ 't') :
    scanFor tail (c :: cs) = scanFor tail cs := by
  have hlit : litMatchCI tryAgainLit (c :: cs) = none := by
    show (if 't' = c.toLower then litMatchCI "ry again in".data cs else none) = none
    rw [if_neg (fun hh : 't' = c.toLower => h hh.symm)]
  rw [scanFor_cons, hlit]
  rfl

/-- A whole run of characters that cannot start the literal is skipped. -/
theorem scanFor_skip_chars {β : Type} (tail : List Char → Option β) (pre x : List Char)
    (hpre : ∀ c ∈ pre, Char.toLower c ≠ 't') :
    scanFor tail (pre ++ x) = scanFor tail x := by
  induction pre with
  | nil => rfl
  | cons c cs ih =>
    rw [List.cons_append, scanFor_cons_not_t _ _ (hpre c (by simp)),
      ih (fun d hd => hpre d (by simp [hd]))]

/-- At a position where the literal matches but the tail matcher fails, the
scan moves on to the next position. -/
theorem scanFor_at_lit {β : Type} (tail : List Char → Option β) (x : List Char)
    (htail : tail x = none) :
    scanFor tail (tryAgainLit ++ x) = scanFor tail ("ry again in".data ++ x) := by
  show scanFor tail ('t' :: ("ry again in".data ++ x)) = _
  rw [scanFor_cons]
  have hlit : litMatchCI tryAgainLit ('t' :: ("ry again in".data ++ x)) = some x := rfl
  rw [hlit]
  simp [htail]

/-- Dropping a `p`-satisfying run stops exactly at a closing non-`p`
character. -/
theorem dropWhile_all_append {p : Char → Bool} (m : Char) (hm : p m = false) :
    ∀ (ds : List Char), (∀ c ∈ ds, p c = true) →
      List.dropWhile p (ds ++ [m]) = [m]
  | [], _ => by simp [List.dropWhile, hm]
  | d :: ds, hds => by
    rw [List.cons_append, List.dropWhile_cons_of_pos (hds d (by simp))]
    exact dropWhile_all_append m hm ds (fun c hc => hds c (by simp [hc]))

/-- The three wait-hint tail matchers all fail on the suffix
`" <digits>m"` (a minute hint with no seconds component). -/
theorem tails_fail_on_minute_only (ds : List Char)
    (hds : ∀ c ∈ ds, c ∈ "0123456789".data) :
    hourTail (' ' :: (ds ++ ['m'])) = none ∧
    minTail (' ' :: (ds ++ ['m'])) = none ∧
    secTail (' ' :: (ds ++ ['m'])) = none := by
  have hfacts : ∀ c ∈ ds, Char.toLower c = c ∧ Char.isDigit c = true ∧
      isJsSpace c = false ∧ isFloatChar c = true ∧ Char.toLower c ≠ 't' :=
    fun c hc => digitChar_facts c (hds c hc)
  cases ds with
  | nil => exact ⟨rfl, rfl, rfl⟩
  | cons d ds2 =>
    have hd := hfacts d (by simp)
    have hds2 : ∀ c ∈ ds2, Char.isDigit c = true :=
      fun c hc => (hfacts c (by simp [hc])).2.1
    have hfl2 : ∀ c ∈ ds2, isFloatChar c = true :=
      fun c hc => (hfacts c (by simp [hc])).2.2.2.1
    have hdropD : List.dropWhile Char.isDigit (ds2 ++ ['m']) = ['m'] :=
      dropWhile_all_append 'm' (by decide) ds2 hds2
    have hdropF : List.dropWhile isFloatChar (ds2 ++ ['m']) = ['m'] :=
      dropWhile_all_append 'm' (by decide) ds2 hfl2
    have hws : List.dropWhile isJsSpace (d :: (ds2 ++ ['m'])) = d :: (ds2 ++ ['m']) := by
      rw [List.dropWhile_cons, if_neg]
      simp [hd.2.2.1]
    refine ⟨?_, ?_, ?_⟩
    · show hourTail (' ' :: (d :: (ds2 ++ ['m']))) = none
      simp only [hourTail, munch1, show isJsSpace ' ' = true from by decide, if_true,
        Option.some_bind, hws, hd.2.1, hdropD,
        show Char.toLower 'm' ≠ 'h' from by decide, if_false]
    · show minTail (' ' :: (d :: (ds2 ++ ['m']))) = none
      simp only [minTail, munch1, show isJsSpace ' ' = true from by decide, if_true,
        Option.some_bind, hws, hd.2.1, hdropD,
        show Char.toLower 'm' = 'm' from rfl, Option.none_bind]
    · show secTail (' ' :: (d :: (ds2 ++ ['m']))) = none
      simp only [secTail, munch1, show isJsSpace ' ' = true from by decide, if_true,
        Option.some_bind, hws, hd.2.2.2.1, hdropF,
        show Char.toLower 'm' ≠ 's' from by decide, if_false]

/-- None of the three wait-hint patterns matches the canonical minute-only
throttling message. -/
theorem scans_minuteOnlyMsg (ds : List Char)
    (hds : ∀ c ∈ ds, c ∈ "0123456789".data) :
    hourScan (minuteOnlyMsg ds).data = false ∧
    minScan (minuteOnlyMsg ds).data = none ∧
    secScan (minuteOnlyMsg ds).data = none := by
  have htails := tails_fail_on_minute_only ds hds
  have hnott : ∀ c ∈ ds, Char.toLower c ≠ 't' :=
    fun c hc => (digitChar_facts c (hds c hc)).2.2.2.2
  have key : ∀ {β : Type} (tail : List Char → Option β),
      tail (' ' :: (ds ++ ['m'])) = none →
      scanFor tail (minuteOnlyMsg ds).data = none := by
    intro β tail htail
    show scanFor tail ("429 ".data ++ (tryAgainLit ++ (' ' :: (ds ++ ['m'])))) = none
    rw [scanFor_skip_chars tail "429 ".data _ (by decide)]
    rw [scanFor_at_lit tail _ htail]
    show scanFor tail ("ry again in ".data ++ (ds ++ ['m'])) = none
    rw [scanFor_skip_chars tail "ry again in ".data _ (by decide)]
    rw [scanFor_skip_chars tail ds ['m'] hnott]
    rw [scanFor_cons_not_t tail _ (by decide)]
    rfl
  refine ⟨?_, key minTail htails.2.1, key secTail htails.2.2⟩
  unfold hourScan
  rw [key hourTail htails.1]
  rfl

/-! ## Claim theorems -/

/-- C1: Rate-limit classification of a throttling error's wait-time hint.
For a 429 first-attempt failure: an hour-scale hint classifies the call as
exhausted with zero retries; a second-scale hint with parsed value `secs`
waits `⌈secs·1000⌉ + 400 ≥ secs·1000` milliseconds and attempts exactly one
retry; a minute-scale hint whose total milliseconds exceed the 12000 ms
threshold classifies as exhausted without retry; a message with no
recognizable wait pattern waits the fixed 3000 ms and retries once. -/
theorem rate_limit_wait_classification {α : Type} (msg : String) (next : Except JsError α) :
    (containsStr msg "429" = true → hourScan msg.data = true →
      (withRateLimitRetry (α := α) (.error (.generic msg)) next).retries = 0 ∧
      (withRateLimitRetry (α := α) (.error (.generic msg)) next).result =
        .error (.rateLimitExhausted "RATE_LIMIT_EXHAUSTED")) ∧
    (∀ cap secs, containsStr msg "429" = true → hourScan msg.data = false →
      minScan msg.data = none → secScan msg.data = some cap →
      parseFloatQ cap = some secs →
      (withRateLimitRetry (α := α) (.error (.generic msg)) next).retries = 1 ∧
      (withRateLimitRetry (α := α) (.error (.generic msg)) next).waits =
        [(((secs * 1000).ceil : ℤ) : ℚ) + 400] ∧
      secs * 1000 ≤ (((secs * 1000).ceil : ℤ) : ℚ) + 400) ∧
    (∀ caps secs, containsStr msg "429" = true → hourScan msg.data = false →
      minScan msg.data = some caps → parseFloatQ caps.2 = some secs →
      12000 < ((digitsToNat caps.1 : ℚ) * 60 + secs) * 1000 →
      (withRateLimitRetry (α := α) (.error (.generic msg)) next).retries = 0 ∧
      (withRateLimitRetry (α := α) (.error (.generic msg)) next).result =
        .error (.rateLimitExhausted "RATE_LIMIT_EXHAUSTED")) ∧
    (containsStr msg "429" = true → hourScan msg.data = false →
      minScan msg.data = none → secScan msg.data = none →
      (withRateLimitRetry (α := α) (.error (.generic msg)) next).retries = 1 ∧
      (withRateLimitRetry (α := α) (.error (.generic msg)) next).waits = [3000]) := by
  refine ⟨?_, ?_, ?_, ?_⟩
  · intro h429 hhour
    have hparse : parseGroq429WaitMs msg = .error (.rateLimitExhausted msg) := by
      unfold parseGroq429WaitMs
      rw [hhour]
      rfl
    unfold withRateLimitRetry
    simp only [JsError.message, h429, Bool.true_eq_false, if_false, hparse, escalateRetryError,
      JsError.isRateLimitExhausted, Bool.or_true, if_true]
    constructor <;> trivial
  · intro cap secs h429 hhour hmin hsec hfloat
    have hparse : parseGroq429WaitMs msg =
        .ok (some ((((secs * 1000).ceil : ℤ) : ℚ) + 400)) := by
      unfold parseGroq429WaitMs
      simp only [hhour, hmin, hsec, Bool.false_eq_true, if_false, hfloat]
    unfold withRateLimitRetry
    simp only [JsError.message, h429, Bool.true_eq_false, if_false, hparse]
    cases next with
    | ok v => exact ⟨by trivial, by simp, by linarith [le_ratCeil (secs * 1000)]⟩
    | error e => exact ⟨by trivial, by simp, by linarith [le_ratCeil (secs * 1000)]⟩
  · intro caps secs h429 hhour hmin hfloat hgt
    have hparse : parseGroq429WaitMs msg = .error (.rateLimitExhausted msg) := by
      unfold parseGroq429WaitMs
      simp only [hhour, hmin, Bool.false_eq_true, if_false, hfloat, hgt, if_true]
    unfold withRateLimitRetry
    simp only [JsError.message, h429, Bool.true_eq_false, if_false, hparse, escalateRetryError,
      JsError.isRateLimitExhausted, Bool.or_true, if_true]
    constructor <;> trivial
  · intro h429 hhour hmin hsec
    have hparse : parseGroq429WaitMs msg = .ok (some 3000) := by
      unfold parseGroq429WaitMs
      simp only [hhour, hmin, hsec, Bool.false_eq_true, if_false]
    unfold withRateLimitRetry
    simp only [JsError.message, h429, Bool.true_eq_false, if_false, hparse]
    cases next with
    | ok v => exact ⟨by trivial, by simp⟩
    | error e => exact ⟨by trivial, by simp⟩

/-- Witness for C1: the four classification branches at concrete throttling
messages — `2h` exhausts with zero retries, `45s` waits at least 45·1000 ms
with one retry, `1m30s` (90000 ms > 12000 ms) exhausts without retry, and an
unrecognizable message waits the fixed 3000 ms with one retry. -/
theorem rate_limit_wait_classification_witness :
    ((withRateLimitRetry (α := ℕ) (.error (.generic "Error 429: try again in 2h")) (.ok 1)).retries = 0 ∧
     (withRateLimitRetry (α := ℕ) (.error (.generic "Error 429: try again in 2h")) (.ok 1)).result =
       .error (.rateLimitExhausted "RATE_LIMIT_EXHAUSTED")) ∧
    ((withRateLimitRetry (α := ℕ) (.error (.generic "Error 429: try again in 45s")) (.ok 1)).retries = 1 ∧
     (45 : ℚ) * 1000 ≤ ((((45 : ℚ) * 1000).ceil : ℤ) : ℚ) + 400) ∧
    ((withRateLimitRetry (α := ℕ) (.error (.generic "Error 429: try again in 1m30s")) (.ok 1)).retries = 0 ∧
     (withRateLimitRetry (α := ℕ) (.error (.generic "Error 429: try again in 1m30s")) (.ok 1)).result =
       .error (.rateLimitExhausted "RATE_LIMIT_EXHAUSTED")) ∧
    ((withRateLimitRetry (α := ℕ) (.error (.generic "Error 429: quota exceeded")) (.ok 1)).retries = 1 ∧
     (withRateLimitRetry (α := ℕ) (.error (.generic "Error 429: quota exceeded")) (.ok 1)).waits = [3000]) := by
  have h1 := (rate_limit_wait_classification (α := ℕ) "Error 429: try again in 2h" (.ok 1)).1
    (by decide) (by decide)
  have h2 := (rate_limit_wait_classification (α := ℕ) "Error 429: try again in 45s" (.ok 1)).2.1
    "45".data 45 (by decide) (by decide) (by decide) (by decide) (by decide)
  have h3 := (rate_limit_wait_classification (α := ℕ) "Error 429: try again in 1m30s" (.ok 1)).2.2.1
    ("1".data, "30".data) 30 (by decide) (by decide) (by decide) (by decide)
    (by rw [show digitsToNat ("1".data, "30".data).1 = 1 from rfl]; norm_num)
  have h4 := (rate_limit_wait_classification (α := ℕ) "Error 429: quota exceeded" (.ok 1)).2.2.2
    (by decide) (by decide) (by decide) (by decide)
  exact ⟨h1, ⟨h2.1, h2.2.2⟩, h3, h4⟩

/-- C2: Retry discipline of the rate-limit wrapper.  At most one retry is ever
attempted; when the single retry also fails with a 429-tagged (or
already-exhausted) error, the whole call produces `RateLimitExhaustedError`,
which the route handler surfaces as the dedicated rate-limit-exceeded signal
(status 402) distinct from a generic failure; a non-429 first-attempt error
propagates immediately without any retry. -/
theorem retry_discipline_and_exhaustion_surfacing {α : Type} :
    (∀ first next : Except JsError α, (withRateLimitRetry first next).retries ≤ 1) ∧
    (∀ (msg : String) (w : Option ℚ) (e2 : JsError),
      containsStr msg "429" = true →
      parseGroq429WaitMs msg = .ok w →
      (containsStr e2.message "429" || e2.isRateLimitExhausted) = true →
      (withRateLimitRetry (α := α) (.error (.generic msg)) (.error e2)).result =
        .error (.rateLimitExhausted e2.message) ∧
      (withRateLimitRetry (α := α) (.error (.generic msg)) (.error e2)).retries = 1 ∧
      classifyRouteError (.rateLimitExhausted e2.message) = .rateLimitExceeded ∧
      routeFailureStatus (classifyRouteError (.rateLimitExhausted e2.message)) = 402 ∧
      (∀ m, classifyRouteError (.rateLimitExhausted e2.message) ≠ .genericFailure m)) ∧
    (∀ (e : JsError) (next : Except JsError α),
      containsStr e.message "429" = false →
      (withRateLimitRetry (.error e) next).result = .error e ∧
      (withRateLimitRetry (.error e) next).retries = 0) := by
  refine ⟨?_, ?_, ?_⟩
  · intro first next
    cases first with
    | ok v => exact Nat.zero_le 1
    | error e =>
      by_cases h429 : containsStr e.message "429" = false
      · have hw : withRateLimitRetry (α := α) (.error e) next = ⟨.error e, 0, []⟩ := by
          unfold withRateLimitRetry
          simp [h429]
        rw [hw]
        exact Nat.zero_le 1
      · cases hp : parseGroq429WaitMs e.message with
        | error ex =>
          have hw : withRateLimitRetry (α := α) (.error e) next =
              ⟨.error (escalateRetryError ex), 0, []⟩ := by
            unfold withRateLimitRetry
            simp [h429, hp]
          rw [hw]
          exact Nat.zero_le 1
        | ok waitMs =>
          cases next with
          | ok v =>
            have hw : withRateLimitRetry (α := α) (.error e) (.ok v) =
                ⟨.ok v, 1, [waitMs.getD 0]⟩ := by
              unfold withRateLimitRetry
              simp [h429, hp]
            rw [hw]
          | error e2 =>
            have hw : withRateLimitRetry (α := α) (.error e) (.error e2) =
                ⟨.error (escalateRetryError e2), 1, [waitMs.getD 0]⟩ := by
              unfold withRateLimitRetry
              simp [h429, hp]
            rw [hw]
  · intro msg w e2 h429 hparse hretry
    have hesc : escalateRetryError e2 = .rateLimitExhausted e2.message := by
      unfold escalateRetryError
      rw [if_pos hretry]
    have hw : withRateLimitRetry (α := α) (.error (.generic msg)) (.error e2) =
        ⟨.error (.rateLimitExhausted e2.message), 1, [w.getD 0]⟩ := by
      unfold withRateLimitRetry
      simp only [JsError.message, h429, Bool.true_eq_false, if_false, hparse, hesc]
    exact ⟨by rw [hw], by rw [hw], rfl, rfl, fun m hc => RouteFailure.noConfusion hc⟩
  · intro e next hnot
    have hw : withRateLimitRetry (α := α) (.error e) next = ⟨.error e, 0, []⟩ := by
      unfold withRateLimitRetry
      simp [hnot]
    exact ⟨by rw [hw], by rw [hw]⟩

/-- Witness for C2: a 429 first attempt followed by a 429 retry failure yields
the distinct exhausted error and the 402 rate-limit-exceeded response; a
non-429 error propagates with zero retries. -/
theorem retry_discipline_and_exhaustion_surfacing_witness :
    ((withRateLimitRetry (α := ℕ) (.error (.generic "Error 429: quota"))
        (.error (.generic "again 429"))).result =
      .error (.rateLimitExhausted "again 429") ∧
     (withRateLimitRetry (α := ℕ) (.error (.generic "Error 429: quota"))
        (.error (.generic "again 429"))).retries = 1 ∧
     classifyRouteError (.rateLimitExhausted "again 429") = .rateLimitExceeded ∧
     routeFailureStatus (classifyRouteError (.rateLimitExhausted "again 429")) = 402 ∧
     (∀ m, classifyRouteError (.rateLimitExhausted "again 429") ≠ .genericFailure m)) ∧
    ((withRateLimitRetry (α := ℕ) (.error (.generic "connection reset")) (.ok 3)).result =
       .error (.generic "connection reset") ∧
     (withRateLimitRetry (α := ℕ) (.error (.generic "connection reset")) (.ok 3)).retries = 0) ∧
    (withRateLimitRetry (α := ℕ) (.ok 5) (.ok 6)).retries ≤ 1 := by
  refine ⟨?_, ?_, ?_⟩
  · exact (retry_discipline_and_exhaustion_surfacing (α := ℕ)).2.1
      "Error 429: quota" (some 3000) (.generic "again 429")
      (by decide) (by decide) (by decide)
  · exact (retry_discipline_and_exhaustion_surfacing (α := ℕ)).2.2
      (.generic "connection reset") (.ok 3) (by decide)
  · exact (retry_discipline_and_exhaustion_surfacing (α := ℕ)).1 (.ok 5) (.ok 6)

/-- C10: a throttling message whose only wait hint is minute-scale with no
seconds component (`try again in <digits>m`) matches neither the
minute-and-seconds pattern nor the seconds pattern (nor the hour pattern), so
the classifier falls through to the unrecognized-format branch: it returns the
fixed 3000 ms default wait and one retry is attempted, rather than
classifying the call as exhausted — even though a minute-scale wait exceeds
the 12-second threshold. -/
theorem minute_hint_without_seconds_uses_default {α : Type}
    (ds : List Char) (hne : ds ≠ [])
    (hds : ∀ c ∈ ds, c ∈ "0123456789".data) (next : Except JsError α) :
    hourScan (minuteOnlyMsg ds).data = false ∧
    minScan (minuteOnlyMsg ds).data = none ∧
    secScan (minuteOnlyMsg ds).data = none ∧
    parseGroq429WaitMs (minuteOnlyMsg ds) = .ok (some 3000) ∧
    (withRateLimitRetry (α := α) (.error (.generic (minuteOnlyMsg ds))) next).retries = 1 ∧
    (withRateLimitRetry (α := α) (.error (.generic (minuteOnlyMsg ds))) next).waits = [3000] ∧
    (∀ v : α, next = .ok v →
      (withRateLimitRetry (α := α) (.error (.generic (minuteOnlyMsg ds))) next).result = .ok v) := by
  obtain ⟨hh, hm, hs⟩ := scans_minuteOnlyMsg ds hds
  have hparse : parseGroq429WaitMs (minuteOnlyMsg ds) = .ok (some 3000) := by
    unfold parseGroq429WaitMs
    rw [hh, hm, hs]
    rfl
  have hc : containsStr (minuteOnlyMsg ds) "429" = true := rfl
  have hw : ∀ P : RetryTrace α → Prop,
      (∀ v, next = .ok v → P ⟨.ok v, 1, [3000]⟩) →
      (∀ e2, next = .error e2 → P ⟨.error (escalateRetryError e2), 1, [3000]⟩) →
      P (withRateLimitRetry (α := α) (.error (.generic (minuteOnlyMsg ds))) next) := by
    intro P hok herr
    unfold withRateLimitRetry
    simp only [JsError.message, hc, Bool.true_eq_false, if_false, hparse]
    cases next with
    | ok v => simpa using hok v rfl
    | error e2 => simpa using herr e2 rfl
  refine ⟨hh, hm, hs, hparse, ?_, ?_, ?_⟩
  · exact hw (fun t => t.retries = 1) (fun v _ => rfl) (fun e2 _ => rfl)
  · exact hw (fun t => t.waits = [3000]) (fun v _ => rfl) (fun e2 _ => rfl)
  · intro v hv
    subst hv
    exact hw (fun t => t.result = .ok v)
      (fun v2 hv2 => by rw [Except.ok.inj hv2])
      (fun e2 hv2 => Except.noConfusion hv2)

/-- Witness for C10: the message `429 try again in 5m` parses to the default
3000 ms wait and the wrapper performs exactly one retry. -/
theorem minute_hint_without_seconds_uses_default_witness :
    hourScan (minuteOnlyMsg ['5']).data = false ∧
    minScan (minuteOnlyMsg ['5']).data = none ∧
    secScan (minuteOnlyMsg ['5']).data = none ∧
    parseGroq429WaitMs (minuteOnlyMsg ['5']) = .ok (some 3000) ∧
    (withRateLimitRetry (α := ℕ) (.error (.generic (minuteOnlyMsg ['5']))) (.ok 7)).retries = 1 ∧
    (withRateLimitRetry (α := ℕ) (.error (.generic (minuteOnlyMsg ['5']))) (.ok 7)).waits = [3000] ∧
    (∀ v : ℕ, (.ok 7 : Except JsError ℕ) = .ok v →
      (withRateLimitRetry (α := ℕ) (.error (.generic (minuteOnlyMsg ['5']))) (.ok 7)).result = .ok v) :=
  minute_hint_without_seconds_uses_default ['5'] (by decide) (by decide) (.ok 7)

/-- Upserting then reading the same key yields the upserted record. -/
theorem storeLookup_storeUpsert (s : RouteStore) (k : String × String) (v : RouteCacheEntry) :
    storeLookup (storeUpsert s k v) k = some v := by
  induction s with
  | nil => simp [storeUpsert, storeLookup]
  | cons p rest ih =>
    obtain ⟨k2, v2⟩ := p
    by_cases h : k2 = k
    · simp [storeUpsert, storeLookup, h]
    · simp [storeUpsert, storeLookup, h, ih]

/-- A defect-free text is a fixed point of one repair pass, at every fuel. -/
theorem fixMermaidGo_of_no_bad :
    ∀ (fuel : ℕ) (l : List Char), hasBadEdgeGo fuel l = false → fixMermaidGo fuel l = l
  | 0, _, _ => rfl
  | _ + 1, [], _ => rfl
  | fuel + 1, c :: cs, h => by
    cases hb : badEdgeAt (c :: cs) with
    | some p =>
      rw [hasBadEdgeGo, hb] at h
      exact absurd h (by simp)
    | none =>
      rw [fixMermaidGo, hb]
      rw [hasBadEdgeGo, hb] at h
      rw [fixMermaidGo_of_no_bad fuel cs h]

/-- C3: Route-cache reads treat partial entries as misses.  With the cache
bypass off, a cached `(repoUrl, route)` record with a missing or empty
`flowVisualization` or `executionTrace` is not returned: the handler
recomputes and overwrites the record by upsert, answering `fromCache = false`;
a record with both fields present and non-empty is returned directly with the
cache-hit flag set and the store untouched. -/
theorem route_cache_partial_entries_are_misses
    (store : RouteStore) (key : String × String) (c : RouteCacheEntry)
    (recomputed : String × String) (hc : storeLookup store key = some c) :
    ((c.flowVisualization = none ∨ c.flowVisualization = some "" ∨
      c.executionTrace = none ∨ c.executionTrace = some "") →
      (handleRouteRequest false store key recomputed).1 =
        ⟨recomputed.1, recomputed.2, false⟩ ∧
      storeLookup (handleRouteRequest false store key recomputed).2 key =
        some ⟨some recomputed.1, some recomputed.2⟩) ∧
    (∀ flow trace, c.flowVisualization = some flow → c.executionTrace = some trace →
      flow ≠ "" → trace ≠ "" →
      (handleRouteRequest false store key recomputed).1 = ⟨flow, trace, true⟩ ∧
      (handleRouteRequest false store key recomputed).2 = store) := by
  constructor
  · intro hpartial
    obtain ⟨fv, et⟩ := c
    have hre : handleRouteRequest false store key recomputed =
        (⟨recomputed.1, recomputed.2, false⟩,
          storeUpsert store key ⟨some recomputed.1, some recomputed.2⟩) := by
      unfold handleRouteRequest
      rw [hc]
      rcases fv with _ | flow
      · rfl
      · rcases et with _ | trace
        · rfl
        · rcases hpartial with h | h | h | h
          · exact absurd h (by simp)
          · rw [Option.some.inj h]
            simp
          · exact absurd h (by simp)
          · rw [Option.some.inj h]
            simp
    rw [hre]
    exact ⟨rfl, storeLookup_storeUpsert store key _⟩
  · intro flow trace hflow htrace hfne htne
    obtain ⟨fv, et⟩ := c
    cases hflow
    cases htrace
    have hre : handleRouteRequest false store key recomputed = (⟨flow, trace, true⟩, store) := by
      unfold handleRouteRequest
      rw [hc]
      simp [hfne, htne]
    rw [hre]
    exact ⟨rfl, rfl⟩

/-- Witness for C3: a record with an empty execution trace is recomputed and
overwritten; a fully populated record is served from cache. -/
theorem route_cache_partial_entries_are_misses_witness :
    ((handleRouteRequest false [(("u", "/r"), ⟨some "flow", some ""⟩)] ("u", "/r")
        ("newFlow", "newTrace")).1 = ⟨"newFlow", "newTrace", false⟩ ∧
     storeLookup (handleRouteRequest false [(("u", "/r"), ⟨some "flow", some ""⟩)] ("u", "/r")
        ("newFlow", "newTrace")).2 ("u", "/r") = some ⟨some "newFlow", some "newTrace"⟩) ∧
    ((handleRouteRequest false [(("u", "/r"), ⟨some "flow", some "trace"⟩)] ("u", "/r")
        ("newFlow", "newTrace")).1 = ⟨"flow", "trace", true⟩ ∧
     (handleRouteRequest false [(("u", "/r"), ⟨some "flow", some "trace"⟩)] ("u", "/r")
        ("newFlow", "newTrace")).2 = [(("u", "/r"), ⟨some "flow", some "trace"⟩)]) := by
  constructor
  · exact (route_cache_partial_entries_are_misses
      [(("u", "/r"), ⟨some "flow", some ""⟩)] ("u", "/r") ⟨some "flow", some ""⟩
      ("newFlow", "newTrace") (by decide)).1 (by simp)
  · exact (route_cache_partial_entries_are_misses
      [(("u", "/r"), ⟨some "flow", some "trace"⟩)] ("u", "/r") ⟨some "flow", some "trace"⟩
      ("newFlow", "newTrace") (by decide)).2 "flow" "trace" rfl rfl (by decide) (by decide)

/-- C5: Mermaid edge-label repair.  Every occurrence of the malformed edge
pattern `-->|label|>` is rewritten to `-->|label|` by the repair pass the
architecture decoder applies to the model response before JSON/diagram
extraction; a response containing no occurrence of the pattern is left
unchanged. -/
theorem mermaid_edge_label_repair :
    fixMermaidEdges "A -->|\u0022X\u0022|> B" = "A -->|\u0022X\u0022| B" ∧
    fixMermaidEdges "A -->|go|> B\nC -->|stop|> D" = "A -->|go| B\nC -->|stop| D" ∧
    (∀ s : String, hasBadEdge s = false → fixMermaidEdges s = s) := by
  refine ⟨by decide, by decide, ?_⟩
  intro s h
  unfold fixMermaidEdges
  rw [fixMermaidGo_of_no_bad _ _ h]

/-- C9: Route-catalog decode failure never throws.  When `JSON.parse` fails
on the extracted payload, `analyzeRoutes` returns the non-empty fallback list
containing exactly one synthetic home-page entry with path `/` and method
`PAGE`, rather than propagating an error. -/
theorem route_catalog_decode_never_throws
    (parse : String → Option (List RouteDetail)) (text : String)
    (hfail : parse (extractJSONpayload text) = none) :
    decodeRoutes parse text = [fallbackRoute] ∧
    decodeRoutes parse text ≠ [] ∧
    (decodeRoutes parse text).length = 1 ∧
    (decodeRoutes parse text).head? = some fallbackRoute ∧
    fallbackRoute.path = "/" ∧ fallbackRoute.method = "PAGE" := by
  have h : decodeRoutes parse text = [fallbackRoute] := by
    unfold decodeRoutes
    rw [hfail]
  refine ⟨h, ?_, ?_, ?_, rfl, rfl⟩
  · rw [h]
    simp
  · rw [h]
    rfl
  · rw [h]
    rfl

/-- Witness for C9: a parser that rejects everything still produces the
single-entry fallback catalog. -/
theorem route_catalog_decode_never_throws_witness :
    decodeRoutes (fun _ => none) "not json at all" = [fallbackRoute] ∧
    decodeRoutes (fun _ => none) "not json at all" ≠ [] ∧
    (decodeRoutes (fun _ => none) "not json at all").length = 1 ∧
    (decodeRoutes (fun _ => none) "not json at all").head? = some fallbackRoute ∧
    fallbackRoute.path = "/" ∧ fallbackRoute.method = "PAGE" :=
  route_catalog_decode_never_throws (fun _ => none) "not json at all" rfl

/-- Equation of `scanSplit` at a cons cell. -/
theorem scanSplit_cons (pat : List Char) (c : Char) (cs : List Char) :
    scanSplit pat (c :: cs) =
      match litMatch pat (c :: cs) with
      | some rest => some ([], rest)
      | none => (scanSplit pat cs).map (fun pr => (c :: pr.1, pr.2)) := rfl

/-- Inversion of a failed `scanSplit` at a cons cell. -/
theorem scanSplit_cons_none_inv {pat : List Char} {c : Char} {cs : List Char}
    (h : scanSplit pat (c :: cs) = none) :
    litMatch pat (c :: cs) = none ∧ scanSplit pat cs = none := by
  rw [scanSplit_cons] at h
  cases hm : litMatch pat (c :: cs) with
  | some r => rw [hm] at h; exact absurd h (by simp)
  | none =>
    rw [hm] at h
    refine ⟨rfl, ?_⟩
    cases hs : scanSplit pat cs with
    | none => rfl
    | some pr => rw [hs] at h; exact absurd h (by simp)

/-- Equation of `fenceBlock` at a cons cell. -/
theorem fenceBlock_cons (c : Char) (cs : List Char) :
    fenceBlock (c :: cs) =
      match fenceBlockAt (c :: cs) with
      | some r => some r
      | none => fenceBlock cs := rfl

/-- A newline-free pattern that fails against `y ++ ['\n']` also fails when
more text follows the newline: the match can never get past the newline. -/
theorem litMatch_stop_at_newline : ∀ (pat y zs : List Char), '\n' ∉ pat →
    litMatch pat (y ++ ['\n']) = none → litMatch pat (y ++ ('\n' :: zs)) = none
  | [], _, _, _, h => absurd h (by simp [litMatch])
  | p1 :: pt, [], zs, hnl, _ => by
    have hp1 : ¬ p1 = '\n' := fun he => hnl (by rw [he]; exact List.mem_cons_self _ _)
    show (if p1 = '\n' then litMatch pt zs else none) = none
    rw [if_neg hp1]
  | p1 :: pt, c :: cs, zs, hnl, h => by
    by_cases hc : p1 = c
    · have h2 : litMatch pt (cs ++ ['\n']) = none := by
        have h3 : (if p1 = c then litMatch pt (cs ++ ['\n']) else none) = none := h
        rwa [if_pos hc] at h3
      have h4 := litMatch_stop_at_newline pt cs zs
        (fun hm => hnl (List.mem_cons_of_mem _ hm)) h2
      show (if p1 = c then litMatch pt (cs ++ ('\n' :: zs)) else none) = none
      rw [if_pos hc]
      exact h4
    · show (if p1 = c then litMatch pt (cs ++ ('\n' :: zs)) else none) = none
      rw [if_neg hc]

/-- A newline-free pattern that fails against `y` also fails against
`y ++ ['\n']`. -/
theorem litMatch_extend_newline : ∀ (pat y : List Char), '\n' ∉ pat →
    litMatch pat y = none → litMatch pat (y ++ ['\n']) = none
  | [], _, _, h => absurd h (by simp [litMatch])
  | p1 :: pt, [], hnl, _ => by
    have hp1 : ¬ p1 = '\n' := fun he => hnl (by rw [he]; exact List.mem_cons_self _ _)
    show (if p1 = '\n' then litMatch pt [] else none) = none
    rw [if_neg hp1]
  | p1 :: pt, c :: cs, hnl, h => by
    by_cases hc : p1 = c
    · have h2 : litMatch pt cs = none := by
        have h3 : (if p1 = c then litMatch pt cs else none) = none := h
        rwa [if_pos hc] at h3
      have h4 := litMatch_extend_newline pt cs
        (fun hm => hnl (List.mem_cons_of_mem _ hm)) h2
      show (if p1 = c then litMatch pt (cs ++ ['\n']) else none) = none
      rw [if_pos hc]
      exact h4
    · show (if p1 = c then litMatch pt (cs ++ ['\n']) else none) = none
      rw [if_neg hc]

/-- Appending a newline to pattern-free text keeps it pattern-free, for a
newline-free pattern. -/
theorem scanSplit_append_newline : ∀ (pat l : List Char), '\n' ∉ pat →
    scanSplit pat l = none → scanSplit pat (l ++ ['\n']) = none
  | pat, [], hnl, h => by
    cases pat with
    | nil => exact absurd h (by simp [scanSplit, litMatch])
    | cons p1 pt =>
      have hp1 : ¬ p1 = '\n' := fun he => hnl (by rw [he]; exact List.mem_cons_self _ _)
      show scanSplit (p1 :: pt) ['\n'] = none
      rw [scanSplit_cons]
      rw [show litMatch (p1 :: pt) ['\n'] = (if p1 = '\n' then litMatch pt [] else none) from rfl]
      rw [if_neg hp1]
      rfl
  | pat, c :: cs, hnl, h => by
    obtain ⟨hm, hcs⟩ := scanSplit_cons_none_inv h
    show scanSplit pat (c :: (cs ++ ['\n'])) = none
    rw [scanSplit_cons]
    rw [show litMatch pat (c :: (cs ++ ['\n'])) = litMatch pat ((c :: cs) ++ ['\n']) from rfl]
    rw [litMatch_extend_newline pat (c :: cs) hnl hm]
    rw [scanSplit_append_newline pat cs hnl hcs]
    rfl

/-- `scanSplit` locates a fence appended after a newline when the text before
the newline is fence-free. -/
theorem scanSplit_finds_fence : ∀ (q rest : List Char),
    scanSplit "```".data (q ++ ['\n']) = none →
    scanSplit "```".data (q ++ ('\n' :: ("```".data ++ rest))) = some (q ++ ['\n'], rest)
  | [], rest, _ => rfl
  | c :: cs, rest, h => by
    have hm : litMatch "```".data ((c :: cs) ++ ['\n']) = none := by
      obtain ⟨hm2, _⟩ := scanSplit_cons_none_inv
        (show scanSplit "```".data (c :: (cs ++ ['\n'])) = none from h)
      exact hm2
    have hcs : scanSplit "```".data (cs ++ ['\n']) = none := by
      obtain ⟨_, hcs2⟩ := scanSplit_cons_none_inv
        (show scanSplit "```".data (c :: (cs ++ ['\n'])) = none from h)
      exact hcs2
    show scanSplit "```".data (c :: (cs ++ ('\n' :: ("```".data ++ rest)))) =
      some ((c :: cs) ++ ['\n'], rest)
    rw [scanSplit_cons]
    rw [show litMatch "```".data (c :: (cs ++ ('\n' :: ("```".data ++ rest)))) =
      litMatch "```".data ((c :: cs) ++ ('\n' :: ("```".data ++ rest))) from rfl]
    rw [litMatch_stop_at_newline "```".data (c :: cs) ("```".data ++ rest) (by decide) hm]
    rw [scanSplit_finds_fence cs rest hcs]
    rfl

/-- Dropping a prefix is idempotent. -/
theorem dropWhile_ws_idem (p : Char → Bool) : ∀ l : List Char,
    List.dropWhile p (List.dropWhile p l) = List.dropWhile p l
  | [] => rfl
  | c :: cs => by
    by_cases h : p c
    · rw [List.dropWhile_cons_of_pos h]
      exact dropWhile_ws_idem p cs
    · rw [List.dropWhile_cons_of_neg h, List.dropWhile_cons_of_neg h]

/-- Pattern-freeness is preserved by dropping a prefix. -/
theorem scanSplit_dropWhile (pat : List Char) (f : Char → Bool) : ∀ l : List Char,
    scanSplit pat l = none → scanSplit pat (List.dropWhile f l) = none
  | [], h => h
  | c :: cs, h => by
    obtain ⟨_, hcs⟩ := scanSplit_cons_none_inv h
    by_cases hf : f c
    · rw [List.dropWhile_cons_of_pos hf]
      exact scanSplit_dropWhile pat f cs hcs
    · rwa [List.dropWhile_cons_of_neg hf]

/-- A fence-free text contains no fenced block. -/
theorem fenceBlock_none : ∀ (l : List Char), scanSplit "```".data l = none →
    fenceBlock l = none
  | [], _ => rfl
  | c :: cs, h => by
    obtain ⟨hm, hcs⟩ := scanSplit_cons_none_inv h
    rw [fenceBlock_cons]
    rw [show fenceBlockAt (c :: cs) = none from by unfold fenceBlockAt; rw [hm]]
    exact fenceBlock_none cs hcs

/-- A block match at the head of a non-empty prefix is the block the scan
returns. -/
theorem fenceBlock_append_of_some (hd tl : List Char) (r : List Char × List Char)
    (hne : hd ≠ []) (h : fenceBlockAt (hd ++ tl) = some r) :
    fenceBlock (hd ++ tl) = some r := by
  cases hd with
  | nil => exact absurd rfl hne
  | cons c cs =>
    rw [List.cons_append] at h ⊢
    rw [fenceBlock_cons, h]

/-- Core of the fence-tolerance property: after the opening fence (with or
without tag) and the newline, maximal whitespace munch followed by the lazy
capture yields exactly the payload up to trimming. -/
theorem fence_capture (p : List Char) (hp : scanSplit "```".data p = none) :
    ∃ cap, scanSplit "```".data
        (List.dropWhile isJsSpace ('\n' :: (p ++ ('\n' :: "```".data)))) = some (cap, []) ∧
      trimChars cap = trimChars p := by
  rw [List.dropWhile_cons_of_pos (show isJsSpace '\n' = true from by decide)]
  rw [List.dropWhile_append]
  by_cases hq : (List.dropWhile isJsSpace p).isEmpty
  · rw [if_pos hq]
    have hq2 : List.dropWhile isJsSpace p = [] := by
      cases hcase : List.dropWhile isJsSpace p with
      | nil => rfl
      | cons a b => rw [hcase] at hq; exact absurd hq (by simp)
    refine ⟨[], ?_, ?_⟩
    · rw [show List.dropWhile isJsSpace ('\n' :: "```".data) = "```".data from by decide]
      decide
    · unfold trimChars
      rw [hq2]
      rfl
  · rw [if_neg hq]
    have hqnone : scanSplit "```".data (List.dropWhile isJsSpace p ++ ['\n']) = none :=
      scanSplit_append_newline _ _ (by decide) (scanSplit_dropWhile _ _ p hp)
    have hfence := scanSplit_finds_fence (List.dropWhile isJsSpace p) [] hqnone
    rw [show ("```".data ++ ([] : List Char)) = "```".data from by simp] at hfence
    refine ⟨List.dropWhile isJsSpace p ++ ['\n'], hfence, ?_⟩
    unfold trimChars
    have h1 : List.dropWhile isJsSpace (List.dropWhile isJsSpace p ++ ['\n']) =
        List.dropWhile isJsSpace p ++ ['\n'] := by
      rw [List.dropWhile_append, dropWhile_ws_idem]
      rw [if_neg hq]
    rw [h1]
    rw [List.reverse_append]
    rw [show ((['\n'] : List Char).reverse ++ (List.dropWhile isJsSpace p).reverse) =
      '\n' :: (List.dropWhile isJsSpace p).reverse from rfl]
    rw [List.dropWhile_cons_of_pos (show isJsSpace '\n' = true from by decide)]

/-- C8: Fence-tolerance of JSON decoding.  For a payload containing no fence,
`extractJSON` hands `JSON.parse` the same (trimmed) string whether the model
response wraps the payload in a fenced block with the `json` language tag, a
fenced block without a tag, or no fence at all — so the three variants decode
to the same structured value under any parse function. -/
theorem json_fence_tolerance (p : String) (hp : containsStr p "```" = false) :
    extractJSONpayload ("```json\n" ++ p ++ "\n```") = ⟨trimChars p.data⟩ ∧
    extractJSONpayload ("```\n" ++ p ++ "\n```") = ⟨trimChars p.data⟩ ∧
    extractJSONpayload p = ⟨trimChars p.data⟩ ∧
    ∀ (jsonParse : String → Option (List RouteDetail)),
      jsonParse (extractJSONpayload ("```json\n" ++ p ++ "\n```")) =
        jsonParse (extractJSONpayload p) ∧
      jsonParse (extractJSONpayload ("```\n" ++ p ++ "\n```")) =
        jsonParse (extractJSONpayload p) := by
  have hp2 : scanSplit "```".data p.data = none := by
    unfold containsStr at hp
    cases hs : scanSplit "```".data p.data with
    | none => rfl
    | some pr => rw [hs] at hp; exact absurd hp (by simp)
  obtain ⟨cap, hcap, htrim⟩ := fence_capture p.data hp2
  have hform1 : extractJSONpayload ("```json\n" ++ p ++ "\n```") = ⟨trimChars p.data⟩ := by
    unfold extractJSONpayload
    rw [show ("```json\n" ++ p ++ "\n```").data =
      "```json\n".data ++ (p.data ++ "\n```".data) from by simp]
    have hat : fenceBlockAt ("```json\n".data ++ (p.data ++ "\n```".data)) = some (cap, []) := by
      have heq : fenceBlockAt ("```json\n".data ++ (p.data ++ "\n```".data)) =
          scanSplit "```".data
            (List.dropWhile isJsSpace ('\n' :: (p.data ++ ('\n' :: "```".data)))) := rfl
      rw [heq, hcap]
    rw [fenceBlock_append_of_some "```json\n".data _ _ (by decide) hat]
    show (⟨trimChars cap⟩ : String) = ⟨trimChars p.data⟩
    rw [htrim]
  have hform2 : extractJSONpayload ("```\n" ++ p ++ "\n```") = ⟨trimChars p.data⟩ := by
    unfold extractJSONpayload
    rw [show ("```\n" ++ p ++ "\n```").data =
      "```\n".data ++ (p.data ++ "\n```".data) from by simp]
    have hat : fenceBlockAt ("```\n".data ++ (p.data ++ "\n```".data)) = some (cap, []) := by
      have heq : fenceBlockAt ("```\n".data ++ (p.data ++ "\n```".data)) =
          scanSplit "```".data
            (List.dropWhile isJsSpace ('\n' :: (p.data ++ ('\n' :: "```".data)))) := rfl
      rw [heq, hcap]
    rw [fenceBlock_append_of_some "```\n".data _ _ (by decide) hat]
    show (⟨trimChars cap⟩ : String) = ⟨trimChars p.data⟩
    rw [htrim]
  have hbare : extractJSONpayload p = ⟨trimChars p.data⟩ := by
    unfold extractJSONpayload
    rw [fenceBlock_none p.data hp2]
  refine ⟨hform1, hform2, hbare, ?_⟩
  intro jsonParse
  rw [hform1, hform2, hbare]
  exact ⟨rfl, rfl⟩

/-- Witness for C8: the payload `[1, 2]` decodes identically from all three
wrappings. -/
theorem json_fence_tolerance_witness :
    extractJSONpayload ("```json\n" ++ "[1, 2]" ++ "\n```") = ⟨trimChars "[1, 2]".data⟩ ∧
    extractJSONpayload ("```\n" ++ "[1, 2]" ++ "\n```") = ⟨trimChars "[1, 2]".data⟩ ∧
    extractJSONpayload "[1, 2]" = ⟨trimChars "[1, 2]".data⟩ ∧
    ∀ (jsonParse : String → Option (List RouteDetail)),
      jsonParse (extractJSONpayload ("```json\n" ++ "[1, 2]" ++ "\n```")) =
        jsonParse (extractJSONpayload "[1, 2]") ∧
      jsonParse (extractJSONpayload ("```\n" ++ "[1, 2]" ++ "\n```")) =
        jsonParse (extractJSONpayload "[1, 2]") :=
  json_fence_tolerance "[1, 2]" (by decide)

/-- Witness for C5: a defect-free diagram text is unchanged by the repair. -/
theorem mermaid_edge_label_repair_witness :
    hasBadEdge "graph LR\nA -->|ok| B" = false ∧
    fixMermaidEdges "graph LR\nA -->|ok| B" = "graph LR\nA -->|ok| B" :=
  ⟨by decide, mermaid_edge_label_repair.2.2 "graph LR\nA -->|ok| B" (by decide)⟩

/-- C4: Source-reference resolution.  A marker naming a file present in the
fresh-fetch set or the cached key-file set resolves to a fenced snippet
containing exactly the 1-based, inclusive lines `start..end` of that file's
content (characterised position by position, together with the snippet's
length); an omitted end line defaults to `start + 30` (with `start` the
0-based index, i.e. 30 lines from the start line); a marker naming a file
absent from both sets resolves to the explicit file-not-found placeholder and
is never replaced by empty text.  The final conjunct checks the whole
trace-level replace on the claim's example `<<<FILE:src/a.ts:10-12>>>`. -/
theorem source_reference_resolution (fullFiles keyFiles : List SrcFile) (filePath : String) :
    (∀ file a b, lookupFile fullFiles keyFiles filePath = some file → 1 ≤ a →
      (∀ i, i < b + 1 - a →
        (snippetLines file.content (a - 1) b)[i]? = lineAt file.content (a + i)) ∧
      (snippetLines file.content (a - 1) b).length =
        min (b + 1 - a) ((splitLines file.content.data).length - (a - 1)) ∧
      resolveMarker fullFiles keyFiles filePath a (some b) =
        "```" ++ langOf filePath ++ "\n" ++
          String.mk (List.intercalate ['\n'] (snippetLines file.content (a - 1) b)) ++
          "\n```") ∧
    (∀ a, resolveMarker fullFiles keyFiles filePath a none =
      resolveMarker fullFiles keyFiles filePath a (some ((a - 1) + 30))) ∧
    (∀ a e, lookupFile fullFiles keyFiles filePath = none →
      resolveMarker fullFiles keyFiles filePath a e =
        "```plaintext\n// File not found: " ++ filePath ++ "\n```" ∧
      resolveMarker fullFiles keyFiles filePath a e ≠ "") ∧
    resolveTrace [⟨"src/a.ts",
        "l1\nl2\nl3\nl4\nl5\nl6\nl7\nl8\nl9\nl10\nl11\nl12\nl13\nl14\nl15"⟩] []
      "Intro <<<FILE:src/a.ts:10-12>>> outro" =
      "Intro ```typescript\nl10\nl11\nl12\n``` outro" := by
  refine ⟨?_, ?_, ?_, by decide⟩
  · intro file a b hlook ha
    have hsub : b - (a - 1) = b + 1 - a := by omega
    refine ⟨?_, ?_, ?_⟩
    · intro i hi
      unfold snippetLines lineAt
      rw [List.getElem?_take_of_lt (by omega), List.getElem?_drop]
      congr 1
      omega
    · unfold snippetLines
      rw [List.length_take, List.length_drop, hsub]
    · unfold resolveMarker
      rw [hlook]
  · intro a
    unfold resolveMarker
    cases lookupFile fullFiles keyFiles filePath <;> rfl
  · intro a e hlook
    have h1 : resolveMarker fullFiles keyFiles filePath a e =
        "```plaintext\n// File not found: " ++ filePath ++ "\n```" := by
      unfold resolveMarker
      rw [hlook]
    refine ⟨h1, ?_⟩
    rw [h1]
    intro hc
    have hlen := congrArg String.length hc
    rw [String.length_append, String.length_append] at hlen
    have h2 : 0 < ("```plaintext\n// File not found: " : String).length := by decide
    have h3 : ("" : String).length = 0 := rfl
    omega

/-- Witness for C4: resolving the marker `src/a.ts:10-12` against a 15-line
file yields lines 10 to 12, and an unknown path yields the placeholder. -/
theorem source_reference_resolution_witness :
    ((snippetLines "l1\nl2\nl3\nl4\nl5\nl6\nl7\nl8\nl9\nl10\nl11\nl12\nl13\nl14\nl15"
        (10 - 1) 12)[0]? =
      lineAt "l1\nl2\nl3\nl4\nl5\nl6\nl7\nl8\nl9\nl10\nl11\nl12\nl13\nl14\nl15" (10 + 0)) ∧
    (snippetLines "l1\nl2\nl3\nl4\nl5\nl6\nl7\nl8\nl9\nl10\nl11\nl12\nl13\nl14\nl15"
        (10 - 1) 12).length = min (12 + 1 - 10) (15 - (10 - 1)) ∧
    (resolveMarker [⟨"src/a.ts",
        "l1\nl2\nl3\nl4\nl5\nl6\nl7\nl8\nl9\nl10\nl11\nl12\nl13\nl14\nl15"⟩] []
      "src/a.ts" 10 (some 12) =
      "```" ++ langOf "src/a.ts" ++ "\n" ++
        String.mk (List.intercalate ['\n']
          (snippetLines "l1\nl2\nl3\nl4\nl5\nl6\nl7\nl8\nl9\nl10\nl11\nl12\nl13\nl14\nl15"
            (10 - 1) 12)) ++ "\n```") ∧
    (resolveMarker [] [] "missing.ts" 10 (some 12) =
      "```plaintext\n// File not found: missing.ts\n```" ∧
     resolveMarker [] [] "missing.ts" 10 (some 12) ≠ "") := by
  have hfound := (source_reference_resolution
    [⟨"src/a.ts", "l1\nl2\nl3\nl4\nl5\nl6\nl7\nl8\nl9\nl10\nl11\nl12\nl13\nl14\nl15"⟩] []
    "src/a.ts").1
    ⟨"src/a.ts", "l1\nl2\nl3\nl4\nl5\nl6\nl7\nl8\nl9\nl10\nl11\nl12\nl13\nl14\nl15"⟩
    10 12 (by decide) (by decide)
  have hmiss := (source_reference_resolution [] [] "missing.ts").2.2.1 10 (some 12) (by decide)
  have hlenlines :
      (splitLines ("l1\nl2\nl3\nl4\nl5\nl6\nl7\nl8\nl9\nl10\nl11\nl12\nl13\nl14\nl15"
        : String).data).length = 15 := by decide
  exact ⟨hfound.1 0 (by decide), by rw [hfound.2.1, hlenlines], hfound.2.2, hmiss⟩

/-- Inversion of a successful fetch step. -/
theorem keyFileStep_some_inv {fetch : String → Option String} {path : String} {kf : KeyFile}
    (h : keyFileStep fetch path = some kf) :
    kf.path = path ∧ ∃ c, fetch path = some c ∧ c ≠ "" ∧ kf.content = truncate c 4000 := by
  unfold keyFileStep at h
  cases hf : fetch path with
  | none => rw [hf] at h; exact absurd h (by simp)
  | some content =>
    rw [hf] at h
    have h2 : (if content = "" then none
        else some (⟨path, truncate content 4000⟩ : KeyFile)) = some kf := h
    by_cases hc : content = ""
    · rw [if_pos hc] at h2
      exact absurd h2 (by simp)
    · rw [if_neg hc] at h2
      have hkfeq : kf = ⟨path, truncate content 4000⟩ := (Option.some.inj h2).symm
      subst hkfeq
      exact ⟨rfl, content, rfl, hc, rfl⟩

/-- The kept-path projection of the fetch/truncate step is a sublist of the
input paths. -/
theorem keyFile_paths_sublist (fetch : String → Option String) : ∀ l : List String,
    List.Sublist ((l.filterMap (keyFileStep fetch)).map (fun kf => kf.path)) l
  | [] => List.Sublist.slnil
  | path :: rest => by
    rw [List.filterMap_cons]
    cases hs : keyFileStep fetch path with
    | none => exact (keyFile_paths_sublist fetch rest).cons path
    | some kf =>
      rw [List.map_cons]
      have hp := (keyFileStep_some_inv hs).1
      rw [hp]
      exact (keyFile_paths_sublist fetch rest).cons₂ path

/-- Elements produced by the selection loop either were already collected or
match one of the remaining patterns. -/
theorem mem_selectLoop (filePaths : List String) : ∀ (pats acc : List String) (x : String),
    x ∈ selectLoop filePaths pats acc →
    x ∈ acc ∨ ∃ pat ∈ pats, patternMatches pat x = true
  | [], _, _, hx => Or.inl hx
  | pat :: pats, acc, x, hx => by
    have hsplit : ∀ y : String,
        y ∈ acc ++ (filePaths.filter (fun p => patternMatches pat p)).filter
          (fun m => !acc.contains m) →
        y ∈ acc ∨ ∃ q ∈ pat :: pats, patternMatches q y = true := by
      intro y hy
      rcases List.mem_append.mp hy with h | h
      · exact Or.inl h
      · have h2 := List.mem_filter.mp h
        have h3 := List.mem_filter.mp h2.1
        exact Or.inr ⟨pat, List.mem_cons_self _ _, h3.2⟩
    unfold selectLoop at hx
    split at hx
    · exact hsplit x hx
    · rcases mem_selectLoop filePaths pats _ x hx with h | ⟨p2, hp2, hm2⟩
      · exact hsplit x h
      · exact Or.inr ⟨p2, List.mem_cons_of_mem _ hp2, hm2⟩

/-- The selection loop preserves freedom from duplicates. -/
theorem selectLoop_nodup (filePaths : List String) (hfp : filePaths.Nodup) :
    ∀ (pats acc : List String), acc.Nodup → (selectLoop filePaths pats acc).Nodup
  | [], _, hacc => hacc
  | pat :: pats, acc, hacc => by
    have hacc2 : (acc ++ (filePaths.filter (fun p => patternMatches pat p)).filter
        (fun m => !acc.contains m)).Nodup := by
      refine hacc.append ((hfp.filter _).filter _) ?_
      rw [List.disjoint_right]
      intro a ha hmem
      have h2 := (List.mem_filter.mp ha).2
      rw [Bool.not_eq_true'] at h2
      rw [show (List.contains acc a) = List.elem a acc from rfl] at h2
      rw [List.elem_iff.mpr hmem] at h2
      exact Bool.noConfusion h2
    unfold selectLoop
    split
    · exact hacc2
    · exact selectLoop_nodup filePaths hfp pats _ hacc2

/-- The stored content of a truncated file is at most 4034 characters. -/
theorem truncate_4000_length_le (c : String) : (truncate c 4000).length ≤ 4034 := by
  unfold truncate
  split_ifs with h
  · omega
  · rw [String.length_append]
    have h1 : (⟨c.data.take 4000⟩ : String).length ≤ 4000 := by
      show (c.data.take 4000).length ≤ 4000
      rw [List.length_take]
      omega
    have h2 : ("\n... [TRUNCATED FOR CONTEXT LIMIT]" : String).length = 34 := by decide
    omega

/-- C7 counterexample: a file of 4001 characters is stored with a content of
4034 characters — the truncation marker pushes the stored content above the
claimed 4000-character bound. -/
theorem key_file_truncation_exceeds_4000 :
    (getKeyFileContents
        (fun p => if p = "README.md" then some longContent else none)
        [⟨"README.md"⟩]).map (fun kf => kf.content.length) = [4034] ∧
    ¬ (4034 ≤ 4000) := by
  have h : getKeyFileContents
      (fun p => if p = "README.md" then some longContent else none)
      [⟨"README.md"⟩] = [⟨"README.md", truncate longContent 4000⟩] := by rfl
  rw [h]
  have hlc : longContent.length = 4001 := by
    show (List.replicate 4001 'a').length = 4001
    rw [List.length_replicate]
  have hlen : (truncate longContent 4000).length = 4034 := by
    unfold truncate
    rw [if_neg (by omega)]
    rw [String.length_append]
    have h1 : (⟨longContent.data.take 4000⟩ : String).length = 4000 := by
      show (longContent.data.take 4000).length = 4000
      rw [List.length_take]
      have : longContent.data.length = 4001 := hlc
      omega
    have h2 : ("\n... [TRUNCATED FOR CONTEXT LIMIT]" : String).length = 34 := by decide
    omega
  rw [List.map_cons, hlen]
  exact ⟨rfl, by omega⟩

/-- C7 (amended): key-file selection and truncation.  `getKeyFileContents`
returns at most 20 files; the selected paths are pairwise distinct (for a
duplicate-free tree) and each matches one of the fixed ordered routing /
entry-point / README patterns; each returned file's content is the fetched
content passed through `truncate · 4000` — the first 4000 characters plus, if
truncation occurred, a fixed 34-character marker, hence at most 4034
characters (the amendment: the marker makes the stored content exceed the
claimed 4000-character bound by up to 34 characters); a path whose fetch
fails is silently skipped and never appears in the result. -/
theorem key_file_selection_amended (fetch : String → Option String) (fileTree : List TreeItem)
    (hnodup : (fileTree.map (fun f => f.path)).Nodup) :
    (getKeyFileContents fetch fileTree).length ≤ 20 ∧
    ((getKeyFileContents fetch fileTree).map (fun kf => kf.path)).Nodup ∧
    (∀ kf ∈ getKeyFileContents fetch fileTree,
      ∃ pat ∈ ROUTING_PATTERNS, patternMatches pat kf.path = true) ∧
    (∀ kf ∈ getKeyFileContents fetch fileTree,
      ∃ c, fetch kf.path = some c ∧ c ≠ "" ∧ kf.content = truncate c 4000 ∧
        kf.content.length ≤ 4034) ∧
    (∀ p, fetch p = none → ∀ kf ∈ getKeyFileContents fetch fileTree, kf.path ≠ p) := by
  have hinv : ∀ kf ∈ getKeyFileContents fetch fileTree,
      kf.path ∈ (selectLoop (fileTree.map (fun f => f.path)) ROUTING_PATTERNS []).take 20 ∧
      ∃ c, fetch kf.path = some c ∧ c ≠ "" ∧ kf.content = truncate c 4000 := by
    intro kf hkf
    unfold getKeyFileContents at hkf
    obtain ⟨path, hpath, hsome⟩ := List.mem_filterMap.mp hkf
    obtain ⟨hp, hrest⟩ := keyFileStep_some_inv hsome
    rw [hp]
    exact ⟨hpath, hrest⟩
  refine ⟨?_, ?_, ?_, ?_, ?_⟩
  · unfold getKeyFileContents
    calc _ ≤ ((selectLoop (fileTree.map (fun f => f.path)) ROUTING_PATTERNS []).take 20).length :=
          List.length_filterMap_le _ _
      _ ≤ 20 := List.length_take_le _ _
  · have hsub : List.Sublist ((getKeyFileContents fetch fileTree).map (fun kf => kf.path))
        ((selectLoop (fileTree.map (fun f => f.path)) ROUTING_PATTERNS []).take 20) :=
      keyFile_paths_sublist fetch _
    have hbig : ((selectLoop (fileTree.map (fun f => f.path)) ROUTING_PATTERNS []).take
        20).Nodup :=
      List.Nodup.sublist (List.take_sublist _ _)
        (selectLoop_nodup _ hnodup ROUTING_PATTERNS [] List.nodup_nil)
    exact List.Nodup.sublist hsub hbig
  · intro kf hkf
    have h1 := (hinv kf hkf).1
    have h2 := mem_selectLoop (fileTree.map (fun f => f.path)) ROUTING_PATTERNS [] kf.path
      (List.mem_of_mem_take h1)
    rcases h2 with h | h
    · exact absurd h (List.not_mem_nil _)
    · exact h
  · intro kf hkf
    obtain ⟨c, hf, hc, heq⟩ := (hinv kf hkf).2
    exact ⟨c, hf, hc, heq, by rw [heq]; exact truncate_4000_length_le c⟩
  · intro p hp kf hkf hpath
    obtain ⟨c, hf, _, _⟩ := (hinv kf hkf).2
    rw [hpath, hp] at hf
    exact Option.noConfusion hf

/-- Witness for C7 (amended): a one-file tree whose README fetch succeeds
yields one selected, pattern-matched, truncated file; a failing fetch yields
no entry for that path. -/
theorem key_file_selection_amended_witness :
    (getKeyFileContents (fun p => if p = "README.md" then some longContent else none)
      [⟨"README.md"⟩]).length ≤ 20 ∧
    ((getKeyFileContents (fun p => if p = "README.md" then some longContent else none)
      [⟨"README.md"⟩]).map (fun kf => kf.path)).Nodup ∧
    (∀ kf ∈ getKeyFileContents (fun p => if p = "README.md" then some longContent else none)
      [⟨"README.md"⟩], ∃ pat ∈ ROUTING_PATTERNS, patternMatches pat kf.path = true) ∧
    (∀ kf ∈ getKeyFileContents (fun p => if p = "README.md" then some longContent else none)
      [⟨"README.md"⟩],
      ∃ c, (fun p => if p = "README.md" then some longContent else none) kf.path = some c ∧
        c ≠ "" ∧ kf.content = truncate c 4000 ∧ kf.content.length ≤ 4034) ∧
    (∀ p, (fun p => if p = "README.md" then some longContent else none) p = none →
      ∀ kf ∈ getKeyFileContents (fun p => if p = "README.md" then some longContent else none)
        [⟨"README.md"⟩], kf.path ≠ p) :=
  key_file_selection_amended (fun p => if p = "README.md" then some longContent else none)
    [⟨"README.md"⟩] (by decide)

/-- Equation of `splitOnChar` at a cons cell. -/
theorem splitOnChar_cons_eq (sep c : Char) (rest : List Char) :
    splitOnChar sep (c :: rest) =
      if c = sep then [] :: splitOnChar sep rest
      else
        match splitOnChar sep rest with
        | h :: t => (c :: h) :: t
        | [] => [[c]] := by
  rw [splitOnChar]

/-- Segment characters of a split come from the source and are never the
separator. -/
theorem mem_splitOnChar (sep : Char) : ∀ (l seg : List Char), seg ∈ splitOnChar sep l →
    ∀ c ∈ seg, c ∈ l ∧ c ≠ sep
  | [], seg, hseg => by
    intro c hc
    have hnil : seg = [] := by simpa [splitOnChar] using hseg
    rw [hnil] at hc
    exact absurd hc (List.not_mem_nil c)
  | a :: rest, seg, hseg => by
    intro c hc
    by_cases ha : a = sep
    · rw [show splitOnChar sep (a :: rest) = [] :: splitOnChar sep rest from by
        rw [splitOnChar_cons_eq, if_pos ha]] at hseg
      rcases List.mem_cons.mp hseg with h | h
      · rw [h] at hc
        exact absurd hc (List.not_mem_nil c)
      · have h4 := mem_splitOnChar sep rest seg h c hc
        exact ⟨List.mem_cons_of_mem a h4.1, h4.2⟩
    · cases hm : splitOnChar sep rest with
      | nil =>
        rw [show splitOnChar sep (a :: rest) = [[a]] from by
          rw [splitOnChar_cons_eq, if_neg ha, hm]] at hseg
        have hseg2 : seg = [a] := by simpa using hseg
        rw [hseg2] at hc
        have hca : c = a := by simpa using hc
        rw [hca]
        exact ⟨List.mem_cons_self a rest, ha⟩
      | cons h t =>
        rw [show splitOnChar sep (a :: rest) = (a :: h) :: t from by
          rw [splitOnChar_cons_eq, if_neg ha, hm]] at hseg
        rcases List.mem_cons.mp hseg with hs | hs
        · rw [hs] at hc
          rcases List.mem_cons.mp hc with hca | hch
          · rw [hca]
            exact ⟨List.mem_cons_self a rest, ha⟩
          · have h4 := mem_splitOnChar sep rest h (hm ▸ List.mem_cons_self h t) c hch
            exact ⟨List.mem_cons_of_mem a h4.1, h4.2⟩
        · have h4 := mem_splitOnChar sep rest seg (hm ▸ List.mem_cons_of_mem h hs) c hc
          exact ⟨List.mem_cons_of_mem a h4.1, h4.2⟩

/-- A split at an explicit separator after a separator-free segment. -/
theorem splitOnChar_append_sep (sep : Char) : ∀ (x y : List Char), (∀ c ∈ x, c ≠ sep) →
    splitOnChar sep (x ++ (sep :: y)) = x :: splitOnChar sep y
  | [], y, _ => by
    show splitOnChar sep (sep :: y) = [] :: splitOnChar sep y
    rw [splitOnChar_cons_eq, if_pos rfl]
  | a :: x2, y, hx => by
    have ha : ¬ a = sep := hx a (List.mem_cons_self a x2)
    show splitOnChar sep (a :: (x2 ++ (sep :: y))) = (a :: x2) :: splitOnChar sep y
    rw [splitOnChar_cons_eq, if_neg ha,
      splitOnChar_append_sep sep x2 y (fun c hc => hx c (List.mem_cons_of_mem a hc))]

/-- A separator-free list splits into itself. -/
theorem splitOnChar_no_sep (sep : Char) : ∀ (l : List Char), (∀ c ∈ l, c ≠ sep) →
    splitOnChar sep l = [l]
  | [], _ => rfl
  | a :: rest, hl => by
    have ha : ¬ a = sep := hl a (List.mem_cons_self a rest)
    rw [splitOnChar_cons_eq, if_neg ha,
      splitOnChar_no_sep sep rest (fun c hc => hl c (List.mem_cons_of_mem a hc))]

/-- `takeWhile` keeps a list all of whose elements satisfy the predicate. -/
theorem takeWhile_all {p : Char → Bool} : ∀ {l : List Char}, (∀ c ∈ l, p c = true) →
    l.takeWhile p = l
  | [], _ => rfl
  | a :: rest, hl => by
    rw [List.takeWhile_cons_of_pos (hl a (List.mem_cons_self a rest))]
    rw [takeWhile_all (fun c hc => hl c (List.mem_cons_of_mem a hc))]

/-- Characters of the pathname produced by the URL model are never query or
fragment starters. -/
theorem urlParse_pathname_chars {s : String} {u : UrlModel} (h : urlParse s = some u) :
    ∀ c ∈ u.pathname, isQueryStart c = false := by
  unfold urlParse at h
  cases hs : scanSplit "://".data s.data with
  | none => rw [hs] at h; exact absurd h (by simp)
  | some pr =>
    obtain ⟨schemeChars, rest⟩ := pr
    rw [hs] at h
    dsimp only at h
    by_cases h1 : schemeChars = [] ∨ ¬ schemeChars.all Char.isAlpha
    · rw [if_pos h1] at h; exact absurd h (by simp)
    · rw [if_neg h1] at h
      by_cases h2 : rest.takeWhile (fun c => !(isAuthorityEnd c)) = []
      · rw [if_pos h2] at h; exact absurd h (by simp)
      · rw [if_neg h2] at h
        cases Option.some.inj h
        intro c hc
        cases hpath : (rest.dropWhile (fun c => !(isAuthorityEnd c))).takeWhile
            (fun c => !(isQueryStart c)) with
        | nil =>
          rw [hpath] at hc
          have hc2 : c ∈ (['/'] : List Char) := hc
          have hcs : c = '/' := by simpa using hc2
          rw [hcs]
          decide
        | cons d ds =>
          rw [hpath] at hc
          have hc2 : c ∈ (rest.dropWhile (fun c => !(isAuthorityEnd c))).takeWhile
              (fun c => !(isQueryStart c)) := by rw [hpath]; exact hc
          have h3 := List.mem_takeWhile_imp hc2
          simpa using h3

/-- Characters of a stripped repo segment come from the original segment. -/
theorem stripGit_data_subset (s : String) : ∀ c ∈ (stripGitSuffix s).data, c ∈ s.data := by
  intro c hc
  unfold stripGitSuffix at hc
  split_ifs at hc with h
  · exact List.take_subset _ _ hc
  · exact hc

/-- Re-parsing a canonical `https://github.com/owner/repo` form recovers the
owner and the (`.git`-stripped) repo, for plain segments. -/
theorem parseGitHubUrl_canonical (o r : String)
    (honil : o.data ≠ []) (hrnil : r.data ≠ [])
    (hofacts : ∀ c ∈ o.data, c ≠ '/' ∧ isQueryStart c = false)
    (hrfacts : ∀ c ∈ r.data, c ≠ '/' ∧ isQueryStart c = false)
    (htrim : trimChars ("https://github.com/" ++ o ++ "/" ++ r).data =
      ("https://github.com/" ++ o ++ "/" ++ r).data) :
    parseGitHubUrl ("https://github.com/" ++ o ++ "/" ++ r) = some (o, stripGitSuffix r) := by
  have hcast : (⟨trimChars ("https://github.com/" ++ o ++ "/" ++ r).data⟩ : String) =
      "https://github.com/" ++ o ++ "/" ++ r := by rw [htrim]
  have hdata : (("https://github.com/" ++ o ++ "/" ++ r) : String).data =
      "https://github.com/".data ++ (o.data ++ ('/' :: r.data)) := by simp
  have hauth : ("github.com/".data ++ (o.data ++ ('/' :: r.data))).takeWhile
      (fun c => !(isAuthorityEnd c)) = "github.com".data := rfl
  have hdropa : ("github.com/".data ++ (o.data ++ ('/' :: r.data))).dropWhile
      (fun c => !(isAuthorityEnd c)) = '/' :: (o.data ++ ('/' :: r.data)) := rfl
  have hpathtake : (('/' :: (o.data ++ ('/' :: r.data))).takeWhile
      (fun c => !(isQueryStart c))) = '/' :: (o.data ++ ('/' :: r.data)) := by
    rw [List.takeWhile_cons_of_pos (by decide)]
    rw [List.takeWhile_append_of_pos (fun a ha => by simp [(hofacts a ha).2])]
    rw [List.takeWhile_cons_of_pos (by decide)]
    rw [takeWhile_all (fun a ha => by simp [(hrfacts a ha).2])]
  have hurl : urlParse ("https://github.com/" ++ o ++ "/" ++ r) =
      some ⟨"https", "github.com", '/' :: (o.data ++ ('/' :: r.data))⟩ := by
    unfold urlParse
    rw [hdata]
    rw [show scanSplit "://".data ("https://github.com/".data ++ (o.data ++ ('/' :: r.data))) =
      some ("https".data, "github.com/".data ++ (o.data ++ ('/' :: r.data))) from rfl]
    dsimp only
    rw [if_neg (by decide)]
    rw [hauth, hdropa, hpathtake]
    rw [if_neg (by decide)]
    rfl
  have hsplit : splitOnChar '/' ('/' :: (o.data ++ ('/' :: r.data))) = [[], o.data, r.data] := by
    rw [splitOnChar_cons_eq, if_pos rfl]
    rw [splitOnChar_append_sep '/' o.data r.data (fun c hc => (hofacts c hc).1)]
    rw [splitOnChar_no_sep '/' r.data (fun c hc => (hrfacts c hc).1)]
  have hoE : o.data.isEmpty = false := by
    cases hod : o.data with
    | nil => exact absurd hod honil
    | cons a b => rfl
  have hrE : r.data.isEmpty = false := by
    cases hod : r.data with
    | nil => exact absurd hod hrnil
    | cons a b => rfl
  have hfilter : ([[], o.data, r.data] : List (List Char)).filter (fun seg => !seg.isEmpty) =
      [o.data, r.data] := by
    simp [List.filter_cons, hoE, hrE]
  unfold parseGitHubUrl
  rw [hcast, hurl]
  dsimp only
  rw [if_neg (by decide)]
  rw [hsplit, hfilter]

/-- C6 counterexample: `parseGitHubUrl` strips only one trailing `.git`, so a
URL whose repo segment ends in `.git.git` is accepted as repo `proj.git`,
while re-parsing the canonical form built from that pair yields `proj` — the
normalization is not a fixed point on this accepted URL. -/
theorem identity_normalization_not_idempotent :
    parseGitHubUrl "https://github.com/alice/proj.git.git" = some ("alice", "proj.git") ∧
    parseGitHubUrl ("https://github.com/" ++ "alice" ++ "/" ++ "proj.git") =
      some ("alice", "proj") ∧
    ("proj.git" : String) ≠ ("proj" : String) :=
  ⟨by decide, by decide, by decide⟩

/-- C6 (amended): identity normalization is idempotent for every accepted URL
whose derived repo name is non-empty and does not itself end in `.git` — the
restriction forced by the counterexample, since re-parsing strips a second
`.git` (and a repo segment equal to `.git` strips to an empty name whose
canonical form does not re-parse).  The trimming hypothesis is a model
artifact: the simplified URL parser does not percent-encode, so the canonical
string must carry no surrounding whitespace. -/
theorem identity_normalization_idempotent_amended
    (url o r : String)
    (hparse : parseGitHubUrl url = some (o, r))
    (hr : r ≠ "")
    (hgit : strEndsWith r ".git" = false)
    (htrim : trimChars ("https://github.com/" ++ o ++ "/" ++ r).data =
      ("https://github.com/" ++ o ++ "/" ++ r).data) :
    parseGitHubUrl ("https://github.com/" ++ o ++ "/" ++ r) = some (o, r) := by
  unfold parseGitHubUrl at hparse
  cases hu : urlParse ⟨trimChars url.data⟩ with
  | none => rw [hu] at hparse; exact absurd hparse (by simp)
  | some u =>
  rw [hu] at hparse
  dsimp only at hparse
  by_cases hhost : u.host ≠ "github.com"
  · rw [if_pos hhost] at hparse; exact absurd hparse (by simp)
  rw [if_neg hhost] at hparse
  cases hsegs : (splitOnChar '/' u.pathname).filter (fun seg => !seg.isEmpty) with
  | nil => rw [hsegs] at hparse; exact absurd hparse (by simp)
  | cons p0 tail =>
  cases tail with
  | nil => rw [hsegs] at hparse; exact absurd hparse (by simp)
  | cons p1 rest2 =>
  rw [hsegs] at hparse
  have heq := Option.some.inj hparse
  have ho : o = ⟨p0⟩ := (congrArg Prod.fst heq).symm
  have hrs : r = stripGitSuffix ⟨p1⟩ := (congrArg Prod.snd heq).symm
  have hqchars := urlParse_pathname_chars hu
  have hp0 : p0 ∈ (splitOnChar '/' u.pathname).filter (fun seg => !seg.isEmpty) := by
    rw [hsegs]; exact List.mem_cons_self _ _
  have hp1 : p1 ∈ (splitOnChar '/' u.pathname).filter (fun seg => !seg.isEmpty) := by
    rw [hsegs]; exact List.mem_cons_of_mem _ (List.mem_cons_self _ _)
  have hp0f := List.mem_filter.mp hp0
  have hp1f := List.mem_filter.mp hp1
  have hp0chars := mem_splitOnChar '/' u.pathname p0 hp0f.1
  have hp1chars := mem_splitOnChar '/' u.pathname p1 hp1f.1
  have hone : o.data = p0 := by rw [ho]
  have hrsub : ∀ c ∈ r.data, c ∈ p1 := by
    intro c hc
    rw [hrs] at hc
    exact stripGit_data_subset ⟨p1⟩ c hc
  have hofacts : ∀ c ∈ o.data, c ≠ '/' ∧ isQueryStart c = false := by
    intro c hc
    rw [hone] at hc
    have h3 := hp0chars c hc
    exact ⟨h3.2, hqchars c h3.1⟩
  have hrfacts : ∀ c ∈ r.data, c ≠ '/' ∧ isQueryStart c = false := by
    intro c hc
    have h3 := hp1chars c (hrsub c hc)
    exact ⟨h3.2, hqchars c h3.1⟩
  have honil : o.data ≠ [] := by
    rw [hone]
    intro hcon
    rw [hcon] at hp0f
    exact absurd hp0f.2 (by simp)
  have hrnil : r.data ≠ [] := by
    intro hcon
    apply hr
    have hre : r = ⟨r.data⟩ := rfl
    rw [hre, hcon]
  have hstrip : stripGitSuffix r = r := by
    unfold stripGitSuffix
    rw [hgit]
    rfl
  have := parseGitHubUrl_canonical o r honil hrnil hofacts hrfacts htrim
  rw [hstrip] at this
  exact this

/-- Witness for C6 (amended): re-parsing the canonical form of the accepted
URL `https://github.com/alice/proj` is a fixed point. -/
theorem identity_normalization_idempotent_amended_witness :
    parseGitHubUrl ("https://github.com/" ++ "alice" ++ "/" ++ "proj") =
      some ("alice", "proj") :=
  identity_normalization_idempotent_amended "https://github.com/alice/proj" "alice" "proj"
    (by decide) (by decide) (by decide) (by decide)

end AnalyzerProof
